import Mathlib

/-!
# Verification of the `ramita` phylogenetic search engine

A shallow embedding of the core of the `ramita` repository
(packages `parsimony`, `matrix` and `likelihood`) together with
theorems settling the specification claims.

The mutable pointer tree of the Go source is embedded as a flat arena
of nodes addressed by their position in the `Nodes` list of the source
(`Node` pointers become `Option Nat` indices, `nil` becomes `none`).
Slices of `uint8` become `List Nat` (all involved bitwise operations
stay below 256, so `Nat` is exact), and Go's `copy` builtin, whose
length semantics matter for terminal nodes with `nil` backup slices,
is modelled by `goCopy`.
-/

namespace Ramita

namespace Parsimony

/-- Go's `copy(dst, src)`: overwrite the first `min |dst| |src|` entries
of `dst` with those of `src`, leaving the tail of `dst` intact. -/
def goCopy (dst src : List Nat) : List Nat :=
  src.take dst.length ++ dst.drop src.length

/-- One column of the Fitch down-pass of `optimize`
(`parsimony.go`): the intersection of the children's
state sets if it is non-empty, their union otherwise. -/
def fitchChar (l r : Nat) : Nat :=
  if l &&& r = 0 then l ||| r else l &&& r

/-- Number of columns whose intersection is empty: the cost increment
of the `optimize` loop in `parsimony.go`. -/
def countPen (ls rs : List Nat) : Nat :=
  (List.zipWith (fun l r => if l &&& r = 0 then 1 else 0) ls rs).sum

/-- A node of the parsimony tree (`Node` of `parsimony.go`).
Pointers are arena indices into the tree's node list; `isTerm`
models `Term != nil`. -/
structure PNode where
  anc : Option Nat
  left : Option Nat
  right : Option Nat
  isTerm : Bool
  chars : List Nat
  cost : Nat
  charsCopy : List Nat
  costCopy : Nat
deriving Repr, DecidableEq

instance : Inhabited PNode :=
  ⟨{ anc := none, left := none, right := none, isTerm := false,
     chars := [], cost := 0, charsCopy := [], costCopy := 0 }⟩

/-- A parsimony tree (`Tree` of `parsimony.go`): the arena of nodes,
in `tr.Nodes` order, plus the index of the root. -/
structure PTree where
  root : Nat
  nodes : List PNode
deriving Repr, DecidableEq

/-- Fetch a node of the arena (out-of-range reads yield the default
node; well-formed states never read out of range). -/
def getN (ns : List PNode) (i : Nat) : PNode :=
  ns.getD i default

/-- Update a node of the arena in place. -/
def setN (ns : List PNode) (i : Nat) (f : PNode → PNode) : List PNode :=
  ns.set i (f (getN ns i))

/-- Update through an optional index (`nil` pointer: no write; the
source would panic, which well-formedness precludes). -/
def setOpt (ns : List PNode) : Option Nat → (PNode → PNode) → List PNode
  | none, _ => ns
  | some i, f => setN ns i f

/-- `optimize` of `parsimony.go`: recompute a node's down-pass state
set and cost from its two children.  Terminal nodes are left alone.
(The source dereferences `n.Left`/`n.Right` unconditionally; a missing
child would be a nil-pointer panic there and is a no-op here, which
well-formed states never exercise.) -/
def optimize (ns : List PNode) (i : Nat) : List PNode :=
  let n := getN ns i
  if n.isTerm then ns
  else
    match n.left, n.right with
    | some l, some r =>
      let ln := getN ns l
      let rn := getN ns r
      setN ns i (fun nd =>
        { nd with
          chars := List.zipWith fitchChar ln.chars rn.chars,
          cost := ln.cost + rn.cost + countPen ln.chars rn.chars })
    | _, _ => ns

/-- `increDown` of `parsimony.go`: re-optimize a node and every
ancestor up to the root, returning the final (root) cost.  The walk
follows `Anc` pointers; `fuel` dominates the chain length. -/
def increDown (fuel : Nat) (ns : List PNode) (n : Option Nat) (cost : Nat) :
    List PNode × Nat :=
  match n, fuel with
  | none, _ => (ns, cost)
  | some _, 0 => (ns, cost)
  | some i, fuel + 1 =>
    let nd := getN ns i
    if nd.isTerm then increDown fuel ns nd.anc cost
    else
      let ns' := optimize ns i
      increDown fuel ns' nd.anc (getN ns' i).cost

/-- `increBound` of `parsimony.go`: like `increDown` but stop as soon
as a rescored node's cost exceeds `bound`, returning the cost and the
node at which the walk stopped (`none` when the root was reached). -/
def increBound (fuel : Nat) (ns : List PNode) (n : Option Nat) (cost bound : Nat) :
    List PNode × Nat × Option Nat :=
  match n, fuel with
  | none, _ => (ns, cost, none)
  | some _, 0 => (ns, cost, none)
  | some i, fuel + 1 =>
    let nd := getN ns i
    if nd.isTerm then increBound fuel ns nd.anc cost bound
    else
      let ns' := optimize ns i
      let c := (getN ns' i).cost
      if bound < c then (ns', c, some i)
      else increBound fuel ns' nd.anc c bound

/-- The restore loop of `addTerm` (`parsimony.go`):
`for a != nil { copy(a.Chars, a.charsCopy); a.Cost = a.costCopy;
a = a.Anc; if a == stop { break } }` — note that the comparison with
`stop` happens after advancing, so `stop` itself is not restored. -/
def restoreUp (fuel : Nat) (ns : List PNode) (a stop : Option Nat) : List PNode :=
  match a, fuel with
  | none, _ => ns
  | some _, 0 => ns
  | some i, fuel + 1 =>
    let ns' := setN ns i (fun nd =>
      { nd with chars := goCopy nd.chars nd.charsCopy, cost := nd.costCopy })
    let a' := (getN ns' i).anc
    if a' = stop then ns' else restoreUp fuel ns' a' stop

/-- The restore loop of `swap` (`parsimony.go`):
`for x := p; x != nil; x = x.Anc { copy(x.Chars, x.charsCopy);
x.Cost = x.costCopy; if x == stop { break } }` — here the comparison
happens before advancing, so `stop` is restored. -/
def restoreUpTo (fuel : Nat) (ns : List PNode) (x stop : Option Nat) : List PNode :=
  match x, fuel with
  | none, _ => ns
  | some _, 0 => ns
  | some i, fuel + 1 =>
    let ns' := setN ns i (fun nd =>
      { nd with chars := goCopy nd.chars nd.charsCopy, cost := nd.costCopy })
    if some i = stop then ns' else restoreUpTo fuel ns' (getN ns' i).anc stop

/-- The commit loops of `addTerm`/`swap`: copy current state into the
backups along the ancestor chain
(`for x := n; x != nil; x = x.Anc { copy(x.charsCopy, x.Chars); x.costCopy = x.Cost }`). -/
def commitUp (fuel : Nat) (ns : List PNode) (x : Option Nat) : List PNode :=
  match x, fuel with
  | none, _ => ns
  | some _, 0 => ns
  | some i, fuel + 1 =>
    let ns' := setN ns i (fun nd =>
      { nd with charsCopy := goCopy nd.charsCopy nd.chars, costCopy := nd.cost })
    commitUp fuel ns' (getN ns' i).anc

/-- Loop state of the candidate loop of `addTerm`. -/
structure AddState where
  nodes : List PNode
  bestCost : Nat
  bestPos : Option Nat
deriving Repr, DecidableEq

/-- One iteration of the candidate loop of `addTerm`
(`for _, d := range tr.Nodes[2:]`): splice the fresh internal node
`na` between `d` and `d.Anc`, rescore with `increBound`, record an
improvement, then unsplice and restore the ancestor chain from the
shadow copies up to the stop node. -/
def addTermStep (fuel naIdx : Nat) (s : AddState) (d : Nat) : AddState :=
  match (getN s.nodes d).anc with
  | none => s
  | some a =>
    let ns := s.nodes
    let ns := setN ns naIdx (fun nd => { nd with anc := some a, right := some d })
    let ns := setN ns d (fun nd => { nd with anc := some naIdx })
    let ns := if (getN ns a).left = some d
      then setN ns a (fun nd => { nd with left := some naIdx })
      else setN ns a (fun nd => { nd with right := some naIdx })
    match increBound fuel ns (some naIdx) 0 s.bestCost with
    | (ns, cost, stop) =>
      let best : Nat × Option Nat :=
        if cost < s.bestCost then (cost, some d) else (s.bestCost, s.bestPos)
      let ns := if (getN ns a).left = some naIdx
        then setN ns a (fun nd => { nd with left := some d })
        else setN ns a (fun nd => { nd with right := some d })
      let ns := setN ns d (fun nd => { nd with anc := some a })
      let ns := restoreUp fuel ns (some a) stop
      { nodes := ns, bestCost := best.1, bestPos := best.2 }

/-- The entry code of `addTerm` before its candidate loop: allocate
the fresh internal node `na` (with the new terminal `nt` as its left
child, appended to the arena at the positions they will occupy in
`tr.Nodes`), and initialise `bestCost` to the unreachable upper bound
`tr.Cost() + len(tm.Chars)*2` with `bestPos = nil`. -/
def addTermStart (tr : PTree) (tmChars : List Nat) : AddState :=
  let naIdx := tr.nodes.length
  let na : PNode :=
    { anc := none, left := some (naIdx + 1), right := none, isTerm := false,
      chars := List.replicate tmChars.length 0, cost := 0,
      charsCopy := List.replicate tmChars.length 0, costCopy := 0 }
  let nt : PNode :=
    { anc := some naIdx, left := none, right := none, isTerm := true,
      chars := tmChars, cost := 0, charsCopy := [], costCopy := 0 }
  { nodes := tr.nodes ++ [na, nt],
    bestCost := (getN tr.nodes tr.root).cost + tmChars.length * 2,
    bestPos := none }

/-- The candidate positions of `addTerm`: every node of
`tr.Nodes[2:]`. -/
def addTermCands (tr : PTree) : List Nat :=
  (List.range tr.nodes.length).drop 2

/-- The closing code of `addTerm` after its candidate loop: splice
`na` at the best position, rescore the chain and commit the backups.
The source dereferences `bestPos.Anc`; when no candidate improved on
the initial bound `bestPos` is still `nil` and the program panics,
modelled by `none`. -/
def addTermFinish (fuel naIdx root : Nat) (s : AddState) : Option PTree :=
  match s.bestPos with
  | none => none
  | some bp =>
    match (getN s.nodes bp).anc with
    | none => none
    | some a =>
      let ns := s.nodes
      let ns := setN ns naIdx (fun nd => { nd with anc := some a, right := some bp })
      let ns := setN ns bp (fun nd => { nd with anc := some naIdx })
      let ns := if (getN ns a).left = some bp
        then setN ns a (fun nd => { nd with left := some naIdx })
        else setN ns a (fun nd => { nd with right := some naIdx })
      let ns := (increDown fuel ns (some naIdx) 0).1
      let ns := commitUp fuel ns (some naIdx)
      some { root := root, nodes := ns }

/-- `addTerm` of `parsimony.go`: allocate the fresh internal node `na`
(with the new terminal `nt` as its left child), try every splice
position in `tr.Nodes[2:]`, then splice at the best position, rescore
and commit the backups along the chain. -/
def addTerm (fuel : Nat) (tr : PTree) (tmChars : List Nat) : Option PTree :=
  let naIdx := tr.nodes.length
  let s := (addTermCands tr).foldl (addTermStep fuel naIdx) (addTermStart tr tmChars)
  addTermFinish fuel naIdx tr.root s

/-- `Matrix.Wagner` of `parsimony.go`, with the random addition
sequence supplied as the already-shuffled list `seq` of non-outgroup
terminal character vectors (the source draws it from a seeded PRNG).
Builds the five-node seed tree, optimizes it, populates the shadow
copies of the internal nodes, then adds the remaining terminals. -/
def wagner (fuel : Nat) (outChars : List Nat) (seq : List (List Nat)) :
    Option PTree :=
  match seq with
  | t0c :: t1c :: rest =>
    let root : PNode :=
      { anc := none, left := some 1, right := some 2, isTerm := false,
        chars := List.replicate outChars.length 0, cost := 0,
        charsCopy := List.replicate outChars.length 0, costCopy := 0 }
    let out : PNode :=
      { anc := some 0, left := none, right := none, isTerm := true,
        chars := outChars, cost := 0, charsCopy := [], costCopy := 0 }
    let n0 : PNode :=
      { anc := some 0, left := some 3, right := some 4, isTerm := false,
        chars := List.replicate outChars.length 0, cost := 0,
        charsCopy := List.replicate outChars.length 0, costCopy := 0 }
    let t0 : PNode :=
      { anc := some 2, left := none, right := none, isTerm := true,
        chars := t0c, cost := 0, charsCopy := [], costCopy := 0 }
    let t1 : PNode :=
      { anc := some 2, left := none, right := none, isTerm := true,
        chars := t1c, cost := 0, charsCopy := [], costCopy := 0 }
    let ns := [root, out, n0, t0, t1]
    let ns := (increDown fuel ns (some 2) 0).1
    let ns := ns.map (fun n =>
      if n.isTerm then n
      else { n with charsCopy := goCopy n.charsCopy n.chars, costCopy := n.cost })
    rest.foldl (fun acc tmc => acc.bind (fun tr => addTerm fuel tr tmc))
      (some { root := 0, nodes := ns })
  | _ => none

/-- `Node.IsDesc` of `parsimony.go`: walk the `Anc` chain from `n`
looking for `a`. -/
def isDesc (fuel : Nat) (ns : List PNode) (n : Option Nat) (a : Nat) : Bool :=
  match n, fuel with
  | none, _ => false
  | some _, 0 => false
  | some i, fuel + 1 =>
    if i = a then true else isDesc fuel ns (getN ns i).anc a

/-- Loop state of `swap`. -/
structure SwapState where
  nodes : List PNode
  bestCost : Nat
  improved : Bool
deriving Repr, DecidableEq

/-- One candidate regraft attempt of the inner loop of `swap`
(`for _, j := range ls`): the detached fragment `a` is spliced between
`p` and `p.Anc`, rescored with `increBound` against the best cost so
far; an improvement commits the backups from `a` upward and ends the
loop for this node, otherwise the splice is undone and the chain from
`p` restored from the backups up to and including the stop node.
The second component of the state is the `imp` break flag. -/
def swapCand (fuel aIdx rootIdx sisIdx : Nat)
    (st : SwapState × Bool) (p : Nat) : SwapState × Bool :=
  if st.2 then st
  else
    let ns := st.1.nodes
    if isDesc fuel ns (some p) aIdx then st
    else if p = sisIdx then st
    else if (getN ns p).anc = some rootIdx then st
    else
      match (getN ns p).anc with
      | none => st
      | some pa =>
        let psis := if (getN ns pa).left = some p
          then (getN ns pa).right else (getN ns pa).left
        let ns := setN ns pa (fun nd => { nd with left := psis, right := some aIdx })
        let ns := setN ns p (fun nd => { nd with anc := some aIdx })
        let ns := setN ns aIdx (fun nd => { nd with right := some p, anc := some pa })
        match increBound fuel ns (some aIdx) 0 st.1.bestCost with
        | (ns, cost, stop) =>
          if cost < st.1.bestCost then
            let ns := commitUp fuel ns (some aIdx)
            ({ nodes := ns, bestCost := cost, improved := true }, true)
          else
            let ns := setN ns p (fun nd => { nd with anc := some pa })
            let ns := setN ns pa (fun nd => { nd with right := some p })
            let ns := setN ns aIdx (fun nd => { nd with anc := none, right := none })
            let ns := restoreUpTo fuel ns (some p) stop
            ({ st.1 with nodes := ns }, false)

/-- The detach context of one `swap` iteration: the indices of the
bypassed parent `a`, its other child `sis`, the grandparent `gf` and
the uncle `unc`, together with the state after detaching, rescoring
from `gf` and committing the backups along the chain. -/
structure DetachCtx where
  st : SwapState
  aIdx : Nat
  sisIdx : Nat
  gfIdx : Nat
  unc : Option Nat
deriving Repr, DecidableEq

/-- The detach phase of one `swap` iteration: bypass `n`'s parent `a`
in the tree (`gf.Right = sis`, `sis.Anc = gf`, leaving `a` dangling
with `n` as its only child), rescore from `gf` upward and commit the
backups along the chain.  `none` when the iteration is skipped
(`n.Anc == tr.Root`). -/
def swapDetach (fuel rootIdx : Nat) (st : SwapState) (i : Nat) : Option DetachCtx :=
  let ns := st.nodes
  match (getN ns i).anc with
  | none => none
  | some a =>
    if a = rootIdx then none
    else
      let sis := if (getN ns a).left = some i
        then (getN ns a).right else (getN ns a).left
      let ns := setN ns a (fun nd => { nd with left := some i, right := none })
      match (getN ns a).anc with
      | none => none
      | some gf =>
        match sis with
        | none => none
        | some sisIdx =>
          let unc := if (getN ns gf).left = some a
            then (getN ns gf).right else (getN ns gf).left
          let ns := setN ns gf (fun nd => { nd with left := unc, right := some sisIdx })
          let ns := setN ns a (fun nd => { nd with anc := none })
          let ns := setN ns sisIdx (fun nd => { nd with anc := some gf })
          let ns := (increDown fuel ns (some gf) 0).1
          let ns := commitUp fuel ns (some gf)
          some { st := { nodes := ns, bestCost := st.bestCost, improved := st.improved },
                 aIdx := a, sisIdx := sisIdx, gfIdx := gf, unc := unc }

/-- The reattach phase of one `swap` iteration when no regraft
improved: put `a` back between `gf` and `sis`, restore its state from
the backups, rescore from `gf` and recommit the chain. -/
def swapReattach (fuel : Nat) (ctx : DetachCtx) (st2 : SwapState) : SwapState :=
  let ns := st2.nodes
  let ns := setN ns ctx.sisIdx (fun nd => { nd with anc := some ctx.aIdx })
  let ns := setN ns ctx.aIdx (fun nd =>
    { nd with right := some ctx.sisIdx, anc := some ctx.gfIdx })
  let ns := setN ns ctx.gfIdx (fun nd => { nd with left := ctx.unc, right := some ctx.aIdx })
  let ns := setN ns ctx.aIdx (fun nd =>
    { nd with chars := goCopy nd.chars nd.charsCopy, cost := nd.costCopy })
  let ns := (increDown fuel ns (some ctx.gfIdx) 0).1
  let ns := commitUp fuel ns (some ctx.gfIdx)
  { st2 with nodes := ns }

/-- One iteration of the outer loop of `swap`: detach the subtree
rooted at node `n` (bypassing its parent `a`), rescore and commit from
the grandparent upward, try every regraft candidate, and if none
improved reattach `a` where it was, restore its state from the backups
and rescore. -/
def swapIter (fuel rootIdx : Nat) (ls : List Nat)
    (st : SwapState) (i : Nat) : SwapState :=
  match swapDetach fuel rootIdx st i with
  | none => st
  | some ctx =>
    match ls.foldl (swapCand fuel ctx.aIdx rootIdx ctx.sisIdx) (ctx.st, false) with
    | (st2, imp) =>
      if imp then st2
      else swapReattach fuel ctx st2

/-- `Tree.swap` of `parsimony.go`: test every node of `ls` (the
randomized non-root node order) as a prune point, returning the new
arena and whether any regraft improved on the tree cost. -/
def swap (fuel rootIdx : Nat) (ns : List PNode) (ls : List Nat) :
    List PNode × Bool :=
  let st := ls.foldl (swapIter fuel rootIdx ls)
    { nodes := ns, bestCost := (getN ns rootIdx).cost, improved := false }
  (st.nodes, st.improved)

/-- The initial loop of `Dayoff`: refresh every node's backup from its
current state (Go's `copy` into the `nil` backup of a terminal is a
no-op). -/
def commitAll (ns : List PNode) : List PNode :=
  ns.map (fun n =>
    { n with charsCopy := goCopy n.charsCopy n.chars, costCopy := n.cost })

/-- The sweep loop of `Dayoff`: repeat `swap` sweeps while one of them
improves.  `sweeps` is loop fuel; any value at least the initial root
cost plus one is enough (each improving sweep strictly lowers the
cost). -/
def dayoffLoop (fuel rootIdx : Nat) (ls : List Nat) :
    Nat → List PNode → List PNode
  | 0, ns => ns
  | sweeps + 1, ns =>
    match swap fuel rootIdx ns ls with
    | (ns', true) => dayoffLoop fuel rootIdx ls sweeps ns'
    | (ns', false) => ns'

/-- `Tree.Dayoff` of `parsimony.go`, with the randomized node order
supplied as `ls`. -/
def dayoff (fuel sweeps rootIdx : Nat) (ns : List PNode) (ls : List Nat) :
    List PNode :=
  dayoffLoop fuel rootIdx ls sweeps (commitAll ns)

/-! ## Basic arena lemmas -/

theorem getN_eq_getElem (ns : List PNode) (i : Nat) (h : i < ns.length) :
    getN ns i = ns[i] := List.getD_eq_getElem ns default h

theorem getN_setN_self (ns : List PNode) (i : Nat) (h : i < ns.length) (f : PNode → PNode) :
    getN (setN ns i f) i = f (getN ns i) := by
  unfold getN setN
  simp [List.getD, List.getElem?_set_self', h, getN_eq_getElem ns i h]

theorem getN_setN_ne (ns : List PNode) (i j : Nat) (h : j ≠ i) (f : PNode → PNode) :
    getN (setN ns i f) j = getN ns j := by
  unfold getN setN
  simp [List.getD, List.getElem?_set_ne h.symm]

theorem length_setN (ns : List PNode) (i : Nat) (f : PNode → PNode) :
    (setN ns i f).length = ns.length := by
  simp [setN]

theorem countPen_eq_countP (ls rs : List Nat) :
    countPen ls rs = (ls.zip rs).countP (fun p => decide (p.1 &&& p.2 = 0)) := by
  induction ls generalizing rs with
  | nil => cases rs <;> simp [countPen]
  | cons a as ih =>
    cases rs with
    | nil => simp [countPen]
    | cons b bs =>
      have := ih bs
      simp [countPen, List.countP_cons] at *
      by_cases hab : a &&& b = 0 <;> simp [hab, this] <;> omega

theorem zipWith_getD (f : Nat → Nat → Nat) (as bs : List Nat) (c : Nat)
    (h : c < as.length) (h2 : c < bs.length) :
    (List.zipWith f as bs).getD c 0 = f (as.getD c 0) (bs.getD c 0) := by
  rw [List.getD_eq_getElem _ _ (by simp; omega), List.getD_eq_getElem _ _ h,
    List.getD_eq_getElem _ _ h2]
  simp

/-! ## Claim C1: the backup-mirror invariant at candidate transitions -/

/-- The invariant claimed by the specification: every internal node's
current state equals its backup (`Chars = charsCopy`, `Cost = costCopy`). -/
def backupsMirror (ns : List PNode) : Bool :=
  ns.all (fun n => n.isTerm || (n.chars == n.charsCopy && n.cost == n.costCopy))

/-- The seven-node tree Wagner builds over one character from outgroup
`{s0}` and addition sequence `{s0}`, `{s1}`, `{s1}`
(terminals `T0 = 1`, then `T1 = 1, T3 = 2, T4 = 2`). -/
def c1Tree : PTree :=
  (wagner 30 [1] [[1], [2], [2]]).getD { root := 0, nodes := [] }

/-- The state of `addTerm`'s candidate loop after the first `k`
candidate positions for the terminal `T2 = {s0}` have been tried,
rejected or recorded, unspliced and restored — i.e. the `k`-th
top-level transition between candidate moves.  (During the loop the
source's `tr.Nodes` is still the seven-node list: `na` and `nt` are
appended only at the end, so the invariant ranges over
`nodes.take 7`.) -/
def c1Mid (k : Nat) : AddState :=
  ((addTermCands c1Tree).take k).foldl
    (addTermStep 30 c1Tree.nodes.length) (addTermStart c1Tree [1])

instance : Inhabited DetachCtx :=
  ⟨{ st := { nodes := [], bestCost := 0, improved := false },
     aIdx := 0, sisIdx := 0, gfIdx := 0, unc := none }⟩

/-- The nine-node tree Wagner builds over one character from outgroup
`{s0}` and addition sequence `{s0}`, `{s0}`, `{s0}`, `{s1}`. -/
def c1SwapTree : PTree :=
  (wagner 30 [1] [[1], [1], [1], [2]]).getD { root := 0, nodes := [] }

/-- The sweep state at the start of `swap` on `c1SwapTree` (after
`Dayoff`'s initial backup refresh). -/
def c1SwapStart : SwapState :=
  { nodes := commitAll c1SwapTree.nodes,
    bestCost := (getN (commitAll c1SwapTree.nodes) 0).cost, improved := false }

/-- The detach context of the `swap` iteration that prunes node 2. -/
def c1SwapCtx : DetachCtx := (swapDetach 30 0 c1SwapStart 2).getD default

/-- The state of `swap`'s candidate loop (pruned node 2) after the
first `k` entries of the node order have been considered. -/
def c1SwapMid (k : Nat) : SwapState × Bool :=
  ((List.range' 1 8).take k).foldl
    (swapCand 30 c1SwapCtx.aIdx 0 c1SwapCtx.sisIdx) (c1SwapCtx.st, false)

/-- C1 (code_bug evidence): the backup-mirror invariant fails at
top-level transitions between candidate moves, in `addTerm` and in the
`swap` candidate loop alike.

In `addTerm` (tree `c1Tree`, adding terminal `{s0}`): the invariant
holds at the transition after the second candidate, but after the
third candidate is rejected `increBound` has rescored up to a stop
node that the restore loop — which compares with `stop` only *after*
advancing — never restores: node 2 is internal and left with
`Cost = 2` against backup `1`, and the corruption persists in the tree
`addTerm` returns.

In `swap` (tree `c1SwapTree`, pruned node 2): after the first
candidate regraft is rejected, the detached fragment's root (node 7),
which `increBound` re-optimized but the restore loop never touches, is
left with `Chars = [1]` against backup `[3]`. -/
theorem backup_invariant_violated :
    (wagner 30 [1] [[1], [2], [2]]).isSome = true
    ∧ backupsMirror ((c1Mid 2).nodes.take 7) = true
    ∧ backupsMirror ((c1Mid 3).nodes.take 7) = false
    ∧ (getN (c1Mid 3).nodes 2).isTerm = false
    ∧ (getN (c1Mid 3).nodes 2).cost = 2
    ∧ (getN (c1Mid 3).nodes 2).costCopy = 1
    ∧ (addTerm 30 c1Tree [1]).map (fun tr => backupsMirror tr.nodes) = some false
    ∧ (wagner 30 [1] [[1], [1], [1], [2]]).isSome = true
    ∧ (swapDetach 30 0 c1SwapStart 1).isSome = false
    ∧ (swapDetach 30 0 c1SwapStart 2).isSome = true
    ∧ c1SwapCtx.aIdx = 7
    ∧ backupsMirror (c1SwapMid 5).1.nodes = true
    ∧ (c1SwapMid 6).2 = false
    ∧ (getN (c1SwapMid 6).1.nodes 7).isTerm = false
    ∧ (getN (c1SwapMid 6).1.nodes 7).chars = [1]
    ∧ (getN (c1SwapMid 6).1.nodes 7).charsCopy = [3]
    ∧ backupsMirror (c1SwapMid 6).1.nodes = false := by
  decide

/-! ## Claim C3: characterization of `increBound` -/

/-- Bool test that `chain` lists the `Anc` links from its head up to
the root (whose `Anc` is `nil`). -/
def chainOK (ns : List PNode) : List Nat → Bool
  | [] => true
  | [i] => (getN ns i).anc == none
  | i :: j :: rest => ((getN ns i).anc == some j) && chainOK ns (j :: rest)

/-- Rescore the given nodes in order. -/
def rescored (ns : List PNode) (l : List Nat) : List PNode :=
  l.foldl optimize ns

theorem optimize_length (ns : List PNode) (i : Nat) :
    (optimize ns i).length = ns.length := by
  unfold optimize
  by_cases h : (getN ns i).isTerm
  · simp [h]
  · simp only [h, Bool.false_eq_true, if_false]
    cases (getN ns i).left <;> cases (getN ns i).right <;> simp [length_setN]

theorem optimize_frame (ns : List PNode) (i j : Nat) (h : j ≠ i) :
    getN (optimize ns i) j = getN ns j := by
  unfold optimize
  by_cases ht : (getN ns i).isTerm
  · simp [ht]
  · simp only [ht, Bool.false_eq_true, if_false]
    cases (getN ns i).left <;> cases (getN ns i).right <;>
      simp [getN_setN_ne _ _ _ h]

theorem getN_setN_self_of_le (ns : List PNode) (i : Nat) (h : ns.length ≤ i)
    (f : PNode → PNode) : getN (setN ns i f) i = getN ns i := by
  unfold setN
  rw [List.set_eq_of_length_le h]

/-- `optimize` only rewrites a node's state set and cost: the tree
shape fields of every node are untouched. -/
theorem optimize_preserves (ns : List PNode) (i j : Nat) :
    ((getN (optimize ns i) j).anc = (getN ns j).anc)
    ∧ ((getN (optimize ns i) j).left = (getN ns j).left)
    ∧ ((getN (optimize ns i) j).right = (getN ns j).right)
    ∧ ((getN (optimize ns i) j).isTerm = (getN ns j).isTerm) := by
  by_cases hij : j = i
  · subst hij
    unfold optimize
    by_cases ht : (getN ns j).isTerm
    · simp [ht]
    · simp only [ht, Bool.false_eq_true, if_false]
      cases hl : (getN ns j).left with
      | none =>
        cases hr : (getN ns j).right <;> simp [hl, hr] <;>
          simpa using ht
      | some l =>
        cases hr : (getN ns j).right with
        | none => simp [hl, hr]; simpa using ht
        | some r =>
          simp only [hl, hr]
          by_cases hlen : j < ns.length
          · rw [getN_setN_self _ _ hlen]
            simp [hl, hr]
            simpa using ht
          · rw [getN_setN_self_of_le _ _ (by omega)]
            simp [hl, hr]
            simpa using ht
  · rw [optimize_frame _ _ _ hij]
    exact ⟨rfl, rfl, rfl, rfl⟩

theorem rescored_frame (l : List Nat) (ns : List PNode) (j : Nat) (h : j ∉ l) :
    getN (rescored ns l) j = getN ns j := by
  induction l generalizing ns with
  | nil => rfl
  | cons x xs ih =>
    simp only [List.mem_cons, not_or] at h
    show getN (rescored (optimize ns x) xs) j = getN ns j
    exact (ih _ h.2).trans (optimize_frame _ _ _ h.1)

theorem chainOK_congr (ns ns' : List PNode)
    (h : ∀ j, (getN ns' j).anc = (getN ns j).anc) :
    ∀ l, chainOK ns' l = chainOK ns l
  | [] => rfl
  | [i] => by simp [chainOK, h]
  | i :: j :: rest => by
    simp only [chainOK, h, chainOK_congr ns ns' h (j :: rest)]


theorem increBound_none (fuel : Nat) (ns : List PNode) (c bound : Nat) :
    increBound fuel ns none c bound = (ns, c, none) := by
  cases fuel <;> rfl

/-- C3: for every node `n` and bound, `increBound(n, bound)` ascends
the ancestor chain from `n` toward the root re-optimizing each
non-terminal node; either it reaches the root with every rescored cost
within the bound and returns the final cost with the `nil` sentinel,
or it stops at the first chain node whose rescored cost exceeds the
bound and returns that cost together with that stop node — having
rescored exactly the chain prefix up to and including the stop node
and touched nothing else. -/
theorem increBound_charact
    (rest : List Nat) (fuel : Nat) (ns : List PNode) (i : Nat) (c0 bound : Nat)
    (hchain : chainOK ns (i :: rest) = true)
    (hint : ∀ j ∈ i :: rest, (getN ns j).isTerm = false)
    (hnodup : (i :: rest).Nodup)
    (hfuel : (i :: rest).length ≤ fuel) :
    ((increBound fuel ns (some i) c0 bound).2.2 = none
      ∧ (increBound fuel ns (some i) c0 bound).1 = rescored ns (i :: rest)
      ∧ (∀ m, (hm : m < (i :: rest).length) →
          (getN (increBound fuel ns (some i) c0 bound).1 ((i :: rest)[m])).cost ≤ bound)
      ∧ (increBound fuel ns (some i) c0 bound).2.1 =
          (getN (increBound fuel ns (some i) c0 bound).1
            ((i :: rest).getLast (by simp))).cost
      ∧ (∀ j, j ∉ i :: rest →
          getN (increBound fuel ns (some i) c0 bound).1 j = getN ns j))
    ∨ (∃ k, ∃ hk : k < (i :: rest).length,
        (increBound fuel ns (some i) c0 bound).2.2 = some ((i :: rest)[k])
        ∧ (increBound fuel ns (some i) c0 bound).1 =
            rescored ns ((i :: rest).take (k + 1))
        ∧ (increBound fuel ns (some i) c0 bound).2.1 =
            (getN (increBound fuel ns (some i) c0 bound).1 ((i :: rest)[k])).cost
        ∧ bound < (increBound fuel ns (some i) c0 bound).2.1
        ∧ (∀ m, (hm : m < k) →
            (getN (increBound fuel ns (some i) c0 bound).1
              ((i :: rest).get ⟨m, by omega⟩)).cost ≤ bound)
        ∧ (∀ j, j ∉ (i :: rest).take (k + 1) →
            getN (increBound fuel ns (some i) c0 bound).1 j = getN ns j)) := by
  induction rest generalizing fuel ns i c0 with
  | nil =>
    match fuel, hfuel with
    | fuel + 1, _ =>
      have hti : (getN ns i).isTerm = false := hint i (by simp)
      have hanc : (getN ns i).anc = none := by
        simp [chainOK] at hchain; exact hchain
      have hred : increBound (fuel + 1) ns (some i) c0 bound =
          (if bound < (getN (optimize ns i) i).cost
           then ((optimize ns i), (getN (optimize ns i) i).cost, some i)
           else increBound fuel (optimize ns i) (getN ns i).anc
             ((getN (optimize ns i) i).cost) bound) := by
        simp [increBound, hti]
      by_cases hb : bound < (getN (optimize ns i) i).cost
      · right
        refine ⟨0, by simp, ?_⟩
        rw [hred, if_pos hb]
        refine ⟨rfl, rfl, rfl, hb, fun m hm => absurd hm (by omega), fun j hj => ?_⟩
        simp at hj
        exact optimize_frame _ _ _ hj
      · left
        rw [hred, if_neg hb, hanc, increBound_none]
        refine ⟨rfl, rfl, ?_, rfl, fun j hj => ?_⟩
        · intro m hm
          simp at hm
          subst hm
          simpa using Nat.le_of_not_lt hb
        · simp at hj
          exact optimize_frame _ _ _ hj
  | cons x xs ih =>
    match fuel, hfuel with
    | fuel + 1, hfuel =>
      have hti : (getN ns i).isTerm = false := hint i (by simp)
      have hch : (getN ns i).anc = some x ∧ chainOK ns (x :: xs) = true := by
        simpa [chainOK] using hchain
      have hanc : (getN ns i).anc = some x := hch.1
      have hred : increBound (fuel + 1) ns (some i) c0 bound =
          (if bound < (getN (optimize ns i) i).cost
           then ((optimize ns i), (getN (optimize ns i) i).cost, some i)
           else increBound fuel (optimize ns i) (getN ns i).anc
             ((getN (optimize ns i) i).cost) bound) := by
        simp [increBound, hti]
      by_cases hb : bound < (getN (optimize ns i) i).cost
      · right
        refine ⟨0, by simp, ?_⟩
        rw [hred, if_pos hb]
        refine ⟨rfl, rfl, rfl, hb, fun m hm => absurd hm (by omega), fun j hj => ?_⟩
        simp at hj
        exact optimize_frame _ _ _ hj
      · have hpre : ∀ j, (getN (optimize ns i) j).anc = (getN ns j).anc :=
          fun j => (optimize_preserves ns i j).1
        have hchain' : chainOK (optimize ns i) (x :: xs) = true := by
          rw [chainOK_congr ns (optimize ns i) hpre]
          exact hch.2
        have hint' : ∀ j ∈ x :: xs, (getN (optimize ns i) j).isTerm = false := by
          intro j hj
          rw [(optimize_preserves ns i j).2.2.2]
          exact hint j (by simp [hj])
        have hnodup' : (x :: xs).Nodup := hnodup.of_cons
        have hfuel' : (x :: xs).length ≤ fuel := by
          simp at hfuel ⊢; omega
        have hini : i ∉ x :: xs := by
          have h1 := hnodup
          rw [List.nodup_cons] at h1
          exact h1.1
        rw [hred, if_neg hb, hanc]
        rcases ih fuel (optimize ns i) x ((getN (optimize ns i) i).cost)
            hchain' hint' hnodup' hfuel' with
          ⟨h1, h2, h3, h4, h5⟩ | ⟨k, hk, h1, h2, h3, h4, h5, h6⟩
        · left
          refine ⟨h1, ?_, ?_, ?_, ?_⟩
          · rw [h2]; rfl
          · intro m hm
            match m, hm with
            | 0, _ =>
              have hfr : getN (increBound fuel (optimize ns i) (some x)
                  ((getN (optimize ns i) i).cost) bound).1 i = getN (optimize ns i) i := by
                rw [h2]
                exact rescored_frame _ _ _ hini
              simpa [hfr] using Nat.le_of_not_lt hb
            | m + 1, hm =>
              have := h3 m (by simpa using hm)
              simpa using this
          · have hgl : (i :: x :: xs).getLast (by simp) = (x :: xs).getLast (by simp) :=
              List.getLast_cons (by simp)
            rw [hgl]
            exact h4
          · intro j hj
            simp only [List.mem_cons, not_or] at hj
            rw [h5 j (by simp [hj.2.1, hj.2.2]), optimize_frame _ _ _ hj.1]
        · right
          refine ⟨k + 1, by simpa using Nat.succ_lt_succ hk, h1, ?_, h3, h4, ?_, ?_⟩
          · rw [h2]; rfl
          · intro m hm
            match m, hm with
            | 0, _ =>
              have hfr : getN (increBound fuel (optimize ns i) (some x)
                  ((getN (optimize ns i) i).cost) bound).1 i = getN (optimize ns i) i := by
                rw [h2]
                refine rescored_frame _ _ _ ?_
                intro hcon
                exact hini (List.mem_of_mem_take hcon)
              simpa [hfr] using Nat.le_of_not_lt hb
            | m + 1, hm =>
              have := h5 m (by omega)
              simpa using this
          · intro j hj
            simp only [List.take_succ_cons, List.mem_cons, not_or] at hj
            rw [h6 j ?_, optimize_frame _ _ _ hj.1]
            simpa using hj.2

/-- A five-node consistent tree used to witness C3: root 0 over
terminal 1 (`{s0}`) and internal node 2 over terminals 3 (`{s1}`) and
4 (`{s2}`). -/
def c3Arena : List PNode :=
  [{ anc := none, left := some 1, right := some 2, isTerm := false,
     chars := [0], cost := 0, charsCopy := [0], costCopy := 0 },
   { anc := some 0, left := none, right := none, isTerm := true,
     chars := [1], cost := 0, charsCopy := [], costCopy := 0 },
   { anc := some 0, left := some 3, right := some 4, isTerm := false,
     chars := [0], cost := 0, charsCopy := [0], costCopy := 0 },
   { anc := some 2, left := none, right := none, isTerm := true,
     chars := [2], cost := 0, charsCopy := [], costCopy := 0 },
   { anc := some 2, left := none, right := none, isTerm := true,
     chars := [4], cost := 0, charsCopy := [], costCopy := 0 }]

/-- Witness for C3 on `c3Arena` with chain `[2, 0]` and bound 0: the
rescored cost of node 2 is 1 > 0, so the walk stops there. -/
theorem increBound_charact_witness :
    chainOK c3Arena [2, 0] = true
    ∧ (((increBound 5 c3Arena (some 2) 0 0).2.2 = none
        ∧ (increBound 5 c3Arena (some 2) 0 0).1 = rescored c3Arena [2, 0]
        ∧ (∀ m, (hm : m < ([2, 0] : List Nat).length) →
            (getN (increBound 5 c3Arena (some 2) 0 0).1 (([2, 0] : List Nat)[m])).cost ≤ 0)
        ∧ (increBound 5 c3Arena (some 2) 0 0).2.1 =
            (getN (increBound 5 c3Arena (some 2) 0 0).1
              (([2, 0] : List Nat).getLast (by simp))).cost
        ∧ (∀ j, j ∉ ([2, 0] : List Nat) →
            getN (increBound 5 c3Arena (some 2) 0 0).1 j = getN c3Arena j))
      ∨ (∃ k, ∃ hk : k < ([2, 0] : List Nat).length,
          (increBound 5 c3Arena (some 2) 0 0).2.2 = some (([2, 0] : List Nat)[k])
          ∧ (increBound 5 c3Arena (some 2) 0 0).1 =
              rescored c3Arena (([2, 0] : List Nat).take (k + 1))
          ∧ (increBound 5 c3Arena (some 2) 0 0).2.1 =
              (getN (increBound 5 c3Arena (some 2) 0 0).1 (([2, 0] : List Nat)[k])).cost
          ∧ 0 < (increBound 5 c3Arena (some 2) 0 0).2.1
          ∧ (∀ m, (hm : m < k) →
              (getN (increBound 5 c3Arena (some 2) 0 0).1
                (([2, 0] : List Nat).get ⟨m, by omega⟩)).cost ≤ 0)
          ∧ (∀ j, j ∉ ([2, 0] : List Nat).take (k + 1) →
              getN (increBound 5 c3Arena (some 2) 0 0).1 j = getN c3Arena j))) :=
  ⟨by decide,
   increBound_charact [0] 5 c3Arena 2 0 0 (by decide) (by decide) (by decide)
     (by decide)⟩

/-! ## Claim C4: the Fitch down-pass of `optimize` -/

/-- C4: for every internal node `n` with children `L` and `R`,
`optimize(n)` sets, for each character column `c`, `n.Chars[c]` to
`L.Chars[c] AND R.Chars[c]` when that intersection is non-zero and to
`L.Chars[c] OR R.Chars[c]` when it is zero, and sets `n.Cost` to
`L.Cost + R.Cost` plus the number of columns whose intersection was
empty. -/
theorem optimize_fitch (ns : List PNode) (i l r : Nat)
    (hi : i < ns.length)
    (hterm : (getN ns i).isTerm = false)
    (hl : (getN ns i).left = some l) (hr : (getN ns i).right = some r)
    (hlen : (getN ns l).chars.length = (getN ns r).chars.length) :
    (getN (optimize ns i) i).cost =
      (getN ns l).cost + (getN ns r).cost +
        ((getN ns l).chars.zip (getN ns r).chars).countP
          (fun p => decide (p.1 &&& p.2 = 0))
    ∧ (getN (optimize ns i) i).chars.length = (getN ns l).chars.length
    ∧ ∀ c, c < (getN ns l).chars.length →
        (getN (optimize ns i) i).chars.getD c 0 =
          (if (getN ns l).chars.getD c 0 &&& (getN ns r).chars.getD c 0 = 0
           then (getN ns l).chars.getD c 0 ||| (getN ns r).chars.getD c 0
           else (getN ns l).chars.getD c 0 &&& (getN ns r).chars.getD c 0) := by
  unfold optimize
  simp only [hterm, Bool.false_eq_true, if_false, hl, hr]
  rw [getN_setN_self ns i hi]
  refine ⟨?_, ?_, ?_⟩
  · simp [countPen_eq_countP]
  · simp [hlen]
  · intro c hc
    simp only
    rw [zipWith_getD _ _ _ _ hc (hlen ▸ hc)]
    simp [fitchChar]

/-- Witness for C4 at a concrete three-node arena: the internal node 0
with terminal children holding `[3, 4]` and `[5, 1]` gets chars
`[1, 5]` and cost `1`. -/
theorem optimize_fitch_witness :
    letI ns : List PNode :=
      [{ anc := none, left := some 1, right := some 2, isTerm := false,
         chars := [0, 0], cost := 0, charsCopy := [0, 0], costCopy := 0 },
       { anc := some 0, left := none, right := none, isTerm := true,
         chars := [3, 4], cost := 0, charsCopy := [], costCopy := 0 },
       { anc := some 0, left := none, right := none, isTerm := true,
         chars := [5, 1], cost := 0, charsCopy := [], costCopy := 0 }]
    (getN (optimize ns 0) 0).cost =
        (getN ns 1).cost + (getN ns 2).cost +
          ((getN ns 1).chars.zip (getN ns 2).chars).countP
            (fun p => decide (p.1 &&& p.2 = 0))
      ∧ (getN (optimize ns 0) 0).chars.length = (getN ns 1).chars.length
      ∧ ∀ c, c < (getN ns 1).chars.length →
          (getN (optimize ns 0) 0).chars.getD c 0 =
            (if (getN ns 1).chars.getD c 0 &&& (getN ns 2).chars.getD c 0 = 0
             then (getN ns 1).chars.getD c 0 ||| (getN ns 2).chars.getD c 0
             else (getN ns 1).chars.getD c 0 &&& (getN ns 2).chars.getD c 0) :=
  optimize_fitch _ 0 1 2 (by decide) (by decide) (by decide) (by decide) (by decide)

/-! ## Claim C6: the parsimony tree reader -/

/-- A node of the tree built by the parsimony reader (`tree.go`).
Children are optional exactly as in the source, where `Left`/`Right`
are filled one at a time while parsing.  The reader's backup fields
(`charsCopy`/`costCopy`) are set to exact copies of `chars`/`cost`
right after `optimize` and are omitted here. -/
inductive RNode where
  | term (name : String) (chars : List Nat) : RNode
  | node (left right : Option RNode) (chars : List Nat) (cost : Nat) : RNode
deriving Repr

/-- State set of a reader node. -/
def RNode.rchars : RNode → List Nat
  | .term _ cs => cs
  | .node _ _ cs _ => cs

/-- Cost of a reader node. -/
def RNode.rcost : RNode → Nat
  | .term _ _ => 0
  | .node _ _ _ c => c

/-- The `optimize(n)` call at the end of `readNode`: the fresh
internal node over the two parsed children. -/
def mkNode (l r : RNode) : RNode :=
  .node (some l) (some r)
    (List.zipWith fitchChar l.rchars r.rchars)
    (l.rcost + r.rcost + countPen l.rchars r.rchars)

/-- The `if n.Left == nil { n.Left = d } else if n.Right == nil {
n.Right = d } else { return polytomic }` child-attachment of
`readNode`. -/
def addChild (left right : Option RNode) (d : RNode) :
    Except String (Option RNode × Option RNode) :=
  match left with
  | none => .ok (some d, right)
  | some _ =>
    match right with
    | none => .ok (left, some d)
    | some _ => .error "polytomic tree"

/-- The closing check of `readNode` at `)`:
`if n.Left == nil || n.Right == nil { return error }` then `optimize`. -/
def closeNode : Option RNode → Option RNode → Except String RNode
  | some l, some r => .ok (mkNode l r)
  | _, _ => .error "node without two descendants"

/-- `skipBrLen` of `tree.go`: consume characters up to whitespace
(consumed) or a structural character (pushed back). -/
def skipBrLen : List Char → List Char
  | [] => []
  | c :: rest =>
    if c.isWhitespace then rest
    else if c = ',' ∨ c = '(' ∨ c = ')' then c :: rest
    else skipBrLen rest

/-- The accumulator loop of `readTerm` of `tree.go`. -/
def readTermAux (acc : List Char) : List Char → Except String (String × List Char)
  | [] => .error "EOF"
  | c :: rest =>
    if c.isWhitespace then .ok (String.mk acc, rest)
    else if c = ':' then .ok (String.mk acc, skipBrLen rest)
    else if c = ',' ∨ c = '(' ∨ c = ')' then .ok (String.mk acc, c :: rest)
    else readTermAux (acc ++ [c]) rest

/-- `readTerm` of `tree.go`: read a terminal name (branch-length
suffixes skipped). -/
def readTerm (cs : List Char) : Except String (String × List Char) :=
  readTermAux [] cs

/-- `readNode` of `tree.go` over a matrix given as its name-to-states
assignment: parse the children of one parenthesized group, then close
it.  `fuel` dominates the input length. -/
def readNode (fuel : Nat) (m : List (String × List Nat)) (terms : List String)
    (left right : Option RNode) (cs : List Char) :
    Except String (RNode × List String × List Char) :=
  match fuel with
  | 0 => .error "readNode: out of fuel"
  | fuel + 1 =>
    match cs with
    | [] => .error "EOF"
    | c :: rest =>
      if c.isWhitespace ∨ c = ',' then readNode fuel m terms left right rest
      else if c = ':' then readNode fuel m terms left right (skipBrLen rest)
      else if c = ')' then
        match closeNode left right with
        | .error e => .error e
        | .ok nd => .ok (nd, terms, rest)
      else if c = '(' then
        match readNode fuel m terms none none rest with
        | .error e => .error e
        | .ok (d, terms', rest') =>
          match addChild left right d with
          | .error e => .error e
          | .ok (l', r') => readNode fuel m terms' l' r' rest'
      else
        match readTerm (c :: rest) with
        | .error e => .error e
        | .ok (name, rest') =>
          match m.lookup name with
          | none => .error ("terminal " ++ name ++ " not in matrix")
          | some chars =>
            if name ∈ terms then .error ("terminal " ++ name ++ " repeated")
            else
              match addChild left right (.term name chars) with
              | .error e => .error e
              | .ok (l', r') => readNode fuel m (name :: terms) l' r' rest'

/-- `ReadTree` of `tree.go`: scan to the opening parenthesis, read the
root node, wrap errors with the `parsimony: readtree` context. -/
def ReadTree (m : List (String × List Nat)) (cs : List Char) :
    Except String RNode :=
  match cs.dropWhile (fun c => c ≠ '(') with
  | [] => .error "parsimony: readtree: unable to read tree"
  | _ :: rest =>
    match readNode (rest.length + 1) m [] none none rest with
    | .error e => .error ("parsimony: readtree: " ++ e)
    | .ok (nd, _, _) => .ok nd

/-- Every internal node has exactly two children. -/
def isBinary : RNode → Bool
  | .term _ _ => true
  | .node (some l) (some r) _ _ => isBinary l && isBinary r
  | .node _ _ _ _ => false

/-- `isBinary` on an optional child (vacuously true for an unfilled
slot). -/
def isBinaryOpt : Option RNode → Bool
  | none => true
  | some d => isBinary d

theorem addChild_binary (left right : Option RNode) (d : RNode) (l' r' : Option RNode)
    (hl : isBinaryOpt left = true) (hr : isBinaryOpt right = true)
    (hd : isBinary d = true) (h : addChild left right d = .ok (l', r')) :
    isBinaryOpt l' = true ∧ isBinaryOpt r' = true := by
  cases left with
  | none =>
    simp [addChild] at h
    rcases h with ⟨h1, h2⟩
    subst h1; subst h2
    exact ⟨hd, hr⟩
  | some x =>
    cases right with
    | none =>
      simp [addChild] at h
      rcases h with ⟨h1, h2⟩
      subst h1; subst h2
      exact ⟨hl, hd⟩
    | some y => simp [addChild] at h

theorem readNode_binary (fuel : Nat) (m : List (String × List Nat))
    (terms : List String) (left right : Option RNode) (cs : List Char)
    (nd : RNode) (terms' : List String) (rest : List Char)
    (hl : isBinaryOpt left = true) (hr : isBinaryOpt right = true)
    (h : readNode fuel m terms left right cs = .ok (nd, terms', rest)) :
    isBinary nd = true := by
  induction fuel generalizing terms left right cs nd terms' rest with
  | zero => simp [readNode] at h
  | succ fuel ih =>
    induction cs generalizing terms left right with
    | nil => simp [readNode] at h
    | cons c cr ihc =>
      rw [readNode] at h
      by_cases h1 : c.isWhitespace ∨ c = ','
      · rw [if_pos h1] at h
        exact ih _ _ _ _ _ _ _ hl hr h
      · rw [if_neg h1] at h
        by_cases h2 : c = ':'
        · rw [if_pos h2] at h
          exact ih _ _ _ _ _ _ _ hl hr h
        · rw [if_neg h2] at h
          by_cases h3 : c = ')'
          · rw [if_pos h3] at h
            cases hclose : closeNode left right with
            | error e => rw [hclose] at h; simp at h
            | ok nd0 =>
              rw [hclose] at h
              simp at h
              rcases h with ⟨hnd, -, -⟩
              subst hnd
              cases left with
              | none => simp [closeNode] at hclose
              | some l0 =>
                cases right with
                | none => simp [closeNode] at hclose
                | some r0 =>
                  simp [closeNode] at hclose
                  subst hclose
                  simp [mkNode, isBinary]
                  simp [isBinaryOpt] at hl hr
                  exact ⟨hl, hr⟩
          · rw [if_neg h3] at h
            by_cases h4 : c = '('
            · rw [if_pos h4] at h
              cases hrec : readNode fuel m terms none none cr with
              | error e => rw [hrec] at h; simp at h
              | ok v =>
                obtain ⟨d, terms2, rest2⟩ := v
                rw [hrec] at h
                simp at h
                have hd : isBinary d = true := ih _ _ _ _ _ _ _ (by rfl) (by rfl) hrec
                cases hadd : addChild left right d with
                | error e => rw [hadd] at h; simp at h
                | ok lr =>
                  obtain ⟨l', r'⟩ := lr
                  rw [hadd] at h
                  simp at h
                  have := addChild_binary left right d l' r' hl hr hd hadd
                  exact ih _ _ _ _ _ _ _ this.1 this.2 h
            · rw [if_neg h4] at h
              cases hterm : readTerm (c :: cr) with
              | error e => rw [hterm] at h; simp at h
              | ok v =>
                obtain ⟨name, rest2⟩ := v
                rw [hterm] at h
                simp at h
                cases hlk : m.lookup name with
                | none => rw [hlk] at h; simp at h
                | some chars =>
                  rw [hlk] at h
                  simp at h
                  by_cases h5 : name ∈ terms
                  · rw [if_pos h5] at h; simp at h
                  · rw [if_neg h5] at h
                    cases hadd : addChild left right (.term name chars) with
                    | error e => rw [hadd] at h; simp at h
                    | ok lr =>
                      obtain ⟨l', r'⟩ := lr
                      rw [hadd] at h
                      have := addChild_binary left right _ l' r' hl hr (by rfl) hadd
                      exact ih _ _ _ _ _ _ _ this.1 this.2 h

/-- C6 (amended): the tree reader accepts only strictly binary trees —
every tree `ReadTree`/`readNode` returns has exactly two children at
every internal node; a third child under one node fails with
`polytomic tree`, while a group that closes with fewer than two
children fails with `node without two descendants`. -/
theorem readTree_strictly_binary :
    (∀ fuel m terms left right cs nd terms2 rest,
        isBinaryOpt left = true → isBinaryOpt right = true →
        readNode fuel m terms left right cs = .ok (nd, terms2, rest) →
        isBinary nd = true)
    ∧ (∀ m cs nd, ReadTree m cs = .ok nd → isBinary nd = true)
    ∧ (∀ (left right : Option RNode) (d : RNode), left ≠ none → right ≠ none →
        addChild left right d = .error "polytomic tree")
    ∧ (∀ (left right : Option RNode), left = none ∨ right = none →
        closeNode left right = .error "node without two descendants") := by
  refine ⟨?_, ?_, ?_, ?_⟩
  · intro fuel m terms left right cs nd terms2 rest hl hr h
    exact readNode_binary fuel m terms left right cs nd terms2 rest hl hr h
  · intro m cs nd h
    unfold ReadTree at h
    cases hdw : cs.dropWhile (fun c => c ≠ '(') with
    | nil => rw [hdw] at h; simp at h
    | cons c rest =>
      rw [hdw] at h
      dsimp only at h
      cases hrn : readNode (rest.length + 1) m [] none none rest with
      | error e => rw [hrn] at h; simp at h
      | ok v =>
        obtain ⟨nd0, t0, r0⟩ := v
        rw [hrn] at h
        simp at h
        subst h
        exact readNode_binary _ _ _ _ _ _ _ _ _ (by rfl) (by rfl) hrn
  · intro left right d hl hr
    cases left with
    | none => exact absurd rfl hl
    | some x =>
      cases right with
      | none => exact absurd rfl hr
      | some y => rfl
  · intro left right h
    rcases h with h | h
    · subst h; rfl
    · subst h
      cases left with
      | none => rfl
      | some x => rfl

/-- The tree the reader returns on the strictly binary input
`(A (B C));`. -/
def c6Tree : RNode :=
  ((ReadTree [("A", [1]), ("B", [2]), ("C", [4])] ("(A (B C));".toList)).toOption).getD
    (.term "" [])

/-- Witness for C6 at concrete inputs: the reader accepts `(A (B C));`
with a strictly binary result, a third child is refused as
`polytomic tree`, and an underfull group as
`node without two descendants`. -/
theorem readTree_strictly_binary_witness :
    ReadTree [("A", [1]), ("B", [2]), ("C", [4])] ("(A (B C));".toList) = .ok c6Tree
    ∧ isBinary c6Tree = true
    ∧ addChild (some c6Tree) (some c6Tree) c6Tree = .error "polytomic tree"
    ∧ closeNode none none = .error "node without two descendants" :=
  ⟨rfl,
   readTree_strictly_binary.2.1 [("A", [1]), ("B", [2]), ("C", [4])]
     ("(A (B C));".toList) c6Tree (by rfl),
   readTree_strictly_binary.2.2.1 _ _ _ (by simp) (by simp),
   readTree_strictly_binary.2.2.2 _ _ (Or.inl rfl)⟩

/-- C6 counterexample: on `(A);` — an internal node with fewer than
two children — `ReadTree` does fail, but the error is
`node without two descendants`, not `polytomic tree` as the claim
states. -/
theorem readTree_underfull_not_polytomic :
    ReadTree [("A", [1])] ("(A);".toList) =
      .error "parsimony: readtree: node without two descendants"
    ∧ ("parsimony: readtree: node without two descendants" : String) ≠
        "parsimony: readtree: polytomic tree" :=
  ⟨rfl, by decide⟩

end Parsimony

namespace Likelihood

/-- `Poisson` of `likelihood/model.go` (`type Poisson float64`): the
model value is its number of states. -/
abbrev Poisson : Type := ℚ

/-- `NewPoisson` of `likelihood/model.go`. -/
def NewPoisson (states : Nat) : Poisson := (states : ℚ)

/-- `NewJC` of `likelihood/model.go`: the Jukes-Cantor model is the
4-state Poisson model. -/
def NewJC : Poisson := NewPoisson 4

/-- `Poisson.Changes` of `likelihood/model.go`.  Its own documentation
says the number of free change types "is 0, all changes are fixed",
but the body returns 1. -/
def Poisson.Changes (_ : Poisson) : Nat := 1

/-- `Poisson.Freq` of `likelihood/model.go`: equal frequency
`1/states` for every state. -/
def Poisson.Freq (p : Poisson) (_ : Nat) : ℚ := 1 / (p : ℚ)

/-- `Poisson.States` of `likelihood/model.go`. -/
def Poisson.States (p : Poisson) : ℤ := ⌊(p : ℚ)⌋

/-- `Poisson.ChangeRate` of `likelihood/model.go`: `1/states` for
every change type. -/
def Poisson.ChangeRate (p : Poisson) (_ : Nat) : ℚ := 1 / (p : ℚ)

/-- C5 (code_bug evidence): `Changes()` of a Poisson model returns 1,
not 0 as the claim (and the function's own documentation) states —
for the Jukes-Cantor model and for every Poisson model. -/
theorem poisson_changes_eq_one :
    (NewPoisson 4).Changes = 1 ∧ NewJC.Changes ≠ 0 ∧
      ∀ s : Nat, (NewPoisson s).Changes = 1 := by
  refine ⟨rfl, by decide, fun s => rfl⟩

/-! ## Claim C9: branch lengths in the likelihood reader -/

/-- A substitution model as consumed by the likelihood reader
(`Model` interface plus the per-character state count): transition
probabilities are abstract ℚ-valued functions (the source's float64
arithmetic carries no control flow in the reader). -/
structure LModel where
  states : Nat
  prob : Nat → Nat → ℚ → ℚ
deriving Inhabited

/-- The likelihood `Matrix` (`likelihood/matrix.go`): the base matrix
name map, the per-character model ids, the model map and the
per-character state counts. -/
structure LMatrix where
  names : List (String × List Nat)
  model : List String
  mds : List (String × LModel)
  states : List Nat

/-- `Matrix.Model(char)` : `mds[model[char]]`. -/
def LMatrix.ModelOf (m : LMatrix) (i : Nat) : LModel :=
  (m.mds.lookup (m.model.getD i "")).getD default

/-- `Matrix.Chars()` : the number of characters. -/
def LMatrix.Chars (m : LMatrix) : Nat := m.model.length

/-- A node of the likelihood tree (`Node` of the likelihood package).
`condCopy` is omitted: the reader only fills it with copies of `Cond`
and it carries no weight for parsing or branch lengths. -/
inductive LNode where
  | term (name : String) (len : ℚ) (cond : List (List ℚ)) : LNode
  | node (left right : Option LNode) (len : ℚ) (cond : List (List ℚ)) : LNode
deriving Repr

/-- Branch length of a node. -/
def LNode.llen : LNode → ℚ
  | .term _ l _ => l
  | .node _ _ l _ => l

/-- Conditional vectors of a node. -/
def LNode.lcond : LNode → List (List ℚ)
  | .term _ _ c => c
  | .node _ _ _ c => c

/-- Overwrite a node's branch length (`root.Len = 0` in `ReadTree`). -/
def LNode.setLen : LNode → ℚ → LNode
  | .term n _ c, q => .term n q c
  | .node l r _ c, q => .node l r q c

/-- `initializeConditionals`: a terminal's conditional for character
`i` is the indicator vector of its observed bitset over the first
`m.states[i]` bits (allocated with `Model(i).States()` entries);
an internal node starts at zero. -/
def initCond (m : LMatrix) (termChars : Option (List Nat)) : List (List ℚ) :=
  (List.range m.Chars).map (fun i =>
    let md := m.ModelOf i
    match termChars with
    | none => List.replicate md.states (0 : ℚ)
    | some chars =>
      (List.range md.states).map (fun b =>
        if b < m.states.getD i 0 ∧ (chars.getD i 0) &&& (1 <<< b) ≠ 0
        then (1 : ℚ) else 0))

/-- `Node.condState`: the summed transition-weighted conditional of a
child. -/
def condState (md : LModel) (cond : List ℚ) (len : ℚ) (s : Nat) : ℚ :=
  (cond.enum.map (fun p => md.prob s p.1 len * p.2)).sum

/-- `Node.optimize` of the likelihood package: the Felsenstein product
over the two children, per character and state. -/
def loptimize (m : LMatrix) (cond0 : List (List ℚ)) (l r : LNode) : List (List ℚ) :=
  cond0.mapIdx (fun i ci =>
    let md := m.ModelOf i
    ci.mapIdx (fun s _ =>
      condState md (l.lcond.getD i []) l.llen s *
        condState md (r.lcond.getD i []) r.llen s))

/-- The child-attachment of the likelihood `readNode` (same
`Left`/`Right` filling as the parsimony reader). -/
def addChildL (left right : Option LNode) (d : LNode) :
    Except String (Option LNode × Option LNode) :=
  match left with
  | none => .ok (some d, right)
  | some _ =>
    match right with
    | none => .ok (left, some d)
    | some _ => .error "polytomic tree"

/-- Digits to a natural number. -/
def digitsToNat (ds : List Char) : Nat :=
  ds.foldl (fun a c => a * 10 + (c.toNat - '0'.toNat)) 0

/-- Decimal literals to ℚ; stands in for Go's `strconv.ParseFloat`
on the plain decimal branch lengths of the tree grammar (§4.9 of the
specification; exponent forms are not exercised by the format). -/
def parseDecQ (cs : List Char) : Option ℚ :=
  let sign : ℚ × List Char :=
    match cs with
    | '-' :: t => (-1, t)
    | '+' :: t => (1, t)
    | _ => (1, cs)
  let ds := sign.2.takeWhile Char.isDigit
  let rest := sign.2.dropWhile Char.isDigit
  match rest with
  | '.' :: t =>
    let fs := t.takeWhile Char.isDigit
    let rest2 := t.dropWhile Char.isDigit
    if rest2 = [] ∧ (ds ≠ [] ∨ fs ≠ [])
    then some (sign.1 * ((digitsToNat ds : ℚ) + (digitsToNat fs : ℚ) / (10 ^ fs.length)))
    else none
  | [] => if ds ≠ [] then some (sign.1 * (digitsToNat ds : ℚ)) else none
  | _ => none

/-- The accumulation loop of `readBrLen` of the likelihood package:
collect up to whitespace (consumed) or a structural character (pushed
back), then parse; end of input inside the loop is an error as in the
source. -/
def readBrLenAux (acc : List Char) : List Char → Except String (ℚ × List Char)
  | [] => .error "EOF"
  | c :: rest =>
    if c.isWhitespace then
      match parseDecQ acc with
      | some q => .ok (q, rest)
      | none => .error "bad float"
    else if c = ',' ∨ c = '(' ∨ c = ')' then
      match parseDecQ acc with
      | some q => .ok (q, c :: rest)
      | none => .error "bad float"
    else readBrLenAux (acc ++ [c]) rest

/-- `readBrLen` of the likelihood package. -/
def readBrLen (cs : List Char) : Except String (ℚ × List Char) :=
  readBrLenAux [] cs

/-- The accumulator loop of the likelihood `readTerm`: the default
branch length `l := 0.01` is returned unless a `:` suffix follows the
name. -/
def readTermLAux (acc : List Char) : List Char → Except String (String × ℚ × List Char)
  | [] => .error "EOF"
  | c :: rest =>
    if c.isWhitespace then .ok (String.mk acc, 1/100, rest)
    else if c = ':' then
      match readBrLen rest with
      | .error e => .error ("on terminal: bad branch length: " ++ e)
      | .ok (l, rest') => .ok (String.mk acc, l, rest')
    else if c = ',' ∨ c = '(' ∨ c = ')' then .ok (String.mk acc, 1/100, c :: rest)
    else readTermLAux (acc ++ [c]) rest

/-- `readTerm` of the likelihood package. -/
def readTermL (cs : List Char) : Except String (String × ℚ × List Char) :=
  readTermLAux [] cs

/-- The post-close branch-length check of the likelihood `readNode`:
for a non-root node, a following `:` overrides the allocation default
`Len = 0.01`; any other character is pushed back.  End of input here
is an error as in the source (`ReadRune` fails). -/
def applyBrLenSuffix (hasAnc : Bool) (len0 : ℚ) (cs : List Char) :
    Except String (ℚ × List Char) :=
  if hasAnc then
    match cs with
    | [] => .error "EOF"
    | c :: rest =>
      if c = ':' then
        match readBrLen rest with
        | .error e => .error ("bad branch length: " ++ e)
        | .ok (l, rest') => .ok (l, rest')
      else .ok (len0, c :: rest)
  else .ok (len0, cs)

/-- `readNode` of the likelihood package: parse one parenthesized
group; fresh internal nodes carry `Len = 0.01`, overridden only by an
explicit `:length` suffix after the closing parenthesis. -/
def readNodeL (fuel : Nat) (m : LMatrix) (hasAnc : Bool) (terms : List String)
    (left right : Option LNode) (cs : List Char) :
    Except String (LNode × List String × List Char) :=
  match fuel with
  | 0 => .error "readNode: out of fuel"
  | fuel + 1 =>
    match cs with
    | [] => .error "EOF"
    | c :: rest =>
      if c.isWhitespace ∨ c = ',' then readNodeL fuel m hasAnc terms left right rest
      else if c = ')' then
        match left, right with
        | some l, some r =>
          let nd : LNode := .node (some l) (some r) (1/100)
            (loptimize m (initCond m none) l r)
          match applyBrLenSuffix hasAnc (1/100) rest with
          | .error e => .error e
          | .ok (len, rest') => .ok (nd.setLen len, terms, rest')
        | _, _ => .error "node without two descendants"
      else if c = '(' then
        match readNodeL fuel m true terms none none rest with
        | .error e => .error e
        | .ok (d, terms', rest') =>
          match addChildL left right d with
          | .error e => .error e
          | .ok (l', r') => readNodeL fuel m hasAnc terms' l' r' rest'
      else
        match readTermL (c :: rest) with
        | .error e => .error e
        | .ok (name, l, rest') =>
          match m.names.lookup name with
          | none => .error ("terminal " ++ name ++ " not in matrix")
          | some chars =>
            if name ∈ terms then .error ("terminal " ++ name ++ " repeated")
            else
              match addChildL left right (.term name l (initCond m (some chars))) with
              | .error e => .error e
              | .ok (l', r') => readNodeL fuel m hasAnc (name :: terms) l' r' rest'

/-- `ReadTree` of the likelihood package: scan to the opening
parenthesis, read the root node (with no ancestor), then set
`root.Len = 0`. -/
def ReadTreeL (m : LMatrix) (cs : List Char) : Except String LNode :=
  match cs.dropWhile (fun c => c ≠ '(') with
  | [] => .error "likelihood: readtree: unable to read tree"
  | _ :: rest =>
    match readNodeL (rest.length + 1) m false [] none none rest with
    | .error e => .error ("likelihood: readtree: " ++ e)
    | .ok (nd, _, _) => .ok (nd.setLen 0)

instance : Inhabited LNode := ⟨.term "" 0 []⟩

theorem llen_setLen (x : LNode) (q : ℚ) : (x.setLen q).llen = q := by
  cases x <;> rfl

theorem readTermLAux_default (cs : List Char) (acc : List Char) (nm : String) (l : ℚ)
    (rest : List Char) (h : readTermLAux acc cs = .ok (nm, l, rest)) :
    l = 1/100 ∨ ∃ pre t, cs = pre ++ ':' :: t ∧ nm.data = acc ++ pre := by
  induction cs generalizing acc with
  | nil => simp [readTermLAux] at h
  | cons c cr ih =>
    rw [readTermLAux] at h
    by_cases h1 : c.isWhitespace
    · rw [if_pos h1] at h
      simp at h
      left
      rw [← h.2.1]; norm_num
    · rw [if_neg h1] at h
      by_cases h2 : c = ':'
      · rw [if_pos h2] at h
        right
        refine ⟨[], cr, by simp [h2], ?_⟩
        cases hbr : readBrLen cr with
        | error e => rw [hbr] at h; simp at h
        | ok v =>
          rw [hbr] at h
          simp at h
          rw [← h.1]
          simp
      · rw [if_neg h2] at h
        by_cases h3 : c = ',' ∨ c = '(' ∨ c = ')'
        · rw [if_pos h3] at h
          simp at h
          left
          rw [← h.2.1]; norm_num
        · rw [if_neg h3] at h
          rcases ih (acc ++ [c]) h with hd | ⟨pre, t, hcs, hnm⟩
          · left; exact hd
          · right
            exact ⟨c :: pre, t, by simp [hcs], by simp [hnm]⟩

/-- C9: in every tree the likelihood `ReadTree` returns, the root's
branch length is 0; and a node parsed without an explicit `:length`
suffix keeps the default branch length 0.01 — for terminals, when the
character after the name is not `:`; for internal nodes, when the
character after the closing parenthesis is not `:`. -/
theorem readTree_branch_length_defaults :
    (∀ m cs nd, ReadTreeL m cs = .ok nd → nd.llen = 0)
    ∧ (∀ cs nm l rest, readTermL cs = .ok (nm, l, rest) →
        (cs.drop nm.length).head? ≠ some ':' → l = 1/100)
    ∧ (∀ hasAnc cs l rest, applyBrLenSuffix hasAnc (1/100) cs = .ok (l, rest) →
        cs.head? ≠ some ':' → l = 1/100) := by
  refine ⟨?_, ?_, ?_⟩
  · intro m cs nd h
    unfold ReadTreeL at h
    cases hdw : cs.dropWhile (fun c => c ≠ '(') with
    | nil => rw [hdw] at h; simp at h
    | cons c rest =>
      rw [hdw] at h
      dsimp only at h
      cases hrn : readNodeL (rest.length + 1) m false [] none none rest with
      | error e => rw [hrn] at h; simp at h
      | ok v =>
        obtain ⟨nd0, t0, r0⟩ := v
        rw [hrn] at h
        simp at h
        rw [← h]
        exact llen_setLen nd0 0
  · intro cs nm l rest h hcol
    rcases readTermLAux_default cs [] nm l rest h with hd | ⟨pre, t, hcs, hnm⟩
    · exact hd
    · exfalso
      apply hcol
      have hlen : nm.length = pre.length := by
        have : nm.data = pre := by simpa using hnm
        simp [String.length, this]
      rw [hcs, hlen, List.drop_left]
      rfl
  · intro hasAnc cs l rest h hcol
    unfold applyBrLenSuffix at h
    cases hasAnc with
    | false => simp at h; rw [← h.1]; norm_num
    | true =>
      simp only [if_true] at h
      cases cs with
      | nil => simp at h
      | cons c cr =>
        dsimp only at h
        by_cases hc : c = ':'
        · exact absurd (by simp [hc]) hcol
        · rw [if_neg hc] at h
          simp at h
          rw [← h.1]; norm_num

/-- The matrix and input of the C9 witness. -/
def c9Matrix : LMatrix :=
  { names := [("A", [1]), ("B", [2]), ("C", [4])], model := ["jc"],
    mds := [("jc", { states := 4, prob := fun _ _ _ => 1/4 })], states := [4] }

/-- The tree the likelihood reader returns on `(A:0.5 (B C):2);`. -/
def c9Tree : LNode :=
  ((ReadTreeL c9Matrix ("(A:0.5 (B C):2);".toList)).toOption).getD default

/-- Witness for C9 at concrete inputs: the reader accepts
`(A:0.5 (B C):2);` and the root's length is 0; `readTerm` on `B C);`
(no suffix) yields the default 0.01; the post-close check on a
non-`:` continuation keeps the default 0.01. -/
theorem readTree_branch_length_defaults_witness :
    ReadTreeL c9Matrix ("(A:0.5 (B C):2);".toList) = .ok c9Tree
    ∧ c9Tree.llen = 0
    ∧ readTermL ("B C);".toList) = .ok ("B", 1/100, "C);".toList)
    ∧ (1 : ℚ)/100 = 1/100
    ∧ applyBrLenSuffix true (1/100) (";".toList) = .ok (1/100, ";".toList) := by
  refine ⟨by rfl, readTree_branch_length_defaults.1 c9Matrix
    ("(A:0.5 (B C):2);".toList) c9Tree (by rfl), by rfl,
    readTree_branch_length_defaults.2.1 ("B C);".toList) "B" (1/100) ("C);".toList)
      (by rfl) (by decide), by rfl⟩



end Likelihood

end Ramita

namespace Ramita
namespace Likelihood

/-- Trace state of the branch-length refiner: every value assigned to
`n.Len`, in order, and the index of the next likelihood comparison.
`tr.Like()` comparisons (`l > like`) are abstracted by an oracle
`Nat → Bool` consulted once per trial, covering every possible
floating-point likelihood behaviour; the `increDown` conditional
updates carry no control flow of their own. -/
structure RefState where
  trace : List ℚ
  k : Nat
deriving Repr, DecidableEq

/-- The ascent loop of `Tree.refine`: repeatedly try `b = best + step`
while `b ≤ 100`, assigning `n.Len = b` before each likelihood query;
accepted trials move `best` up.  Returns the final `best`, whether any
trial was accepted (`up`), and the trace state. -/
def refineUp (oracle : Nat → Bool) : Nat → ℚ → ℚ → RefState → ℚ × Bool × RefState
  | 0, best, _, st => (best, false, st)
  | fuel + 1, best, step, st =>
    let b := best + step
    if 100 < b then (best, false, st)
    else
      let st2 : RefState := { trace := st.trace ++ [b], k := st.k + 1 }
      if oracle st.k then
        match refineUp oracle fuel b step st2 with
        | (bestF, _, stF) => (bestF, true, stF)
      else (best, false, st2)

/-- The descent loop of `Tree.refine`: repeatedly try
`b = best - step` while `b ≥ 0.0001`. -/
def refineDown (oracle : Nat → Bool) : Nat → ℚ → ℚ → RefState → ℚ × RefState
  | 0, best, _, st => (best, st)
  | fuel + 1, best, step, st =>
    let b := best - step
    if b < 1/10000 then (best, st)
    else
      let st2 : RefState := { trace := st.trace ++ [b], k := st.k + 1 }
      if oracle st.k then (refineDown oracle fuel b step st2)
      else (best, st2)

/-- `Tree.refine` of the likelihood package: geometric hill-climbing
of one branch length with step division by 10 per recursion level,
stopping when `step < 0.001`.  After the ascent phase (and again after
the descent phase) the source writes `n.Len = best`, which is traced.
`loopFuel` bounds the inner loops and `recFuel` the recursion depth;
both are dominated by the source's real bounds (at most
`(100 - best)/step` accepted trials, three levels from `step = 0.1`). -/
def refine (oracle : Nat → Bool) (loopFuel : Nat) :
    Nat → ℚ → ℚ → RefState → ℚ × RefState
  | 0, len, _, st => (len, st)
  | recFuel + 1, len, step, st =>
    if step < 1/1000 then (len, st)
    else
      let r1 := refineUp oracle loopFuel len step st
      let stA : RefState := { trace := r1.2.2.trace ++ [r1.1], k := r1.2.2.k }
      if r1.2.1 then refine oracle loopFuel recFuel r1.1 (step / 10) stA
      else
        let r2 := refineDown oracle loopFuel r1.1 step stA
        let stB : RefState := { trace := r2.2.trace ++ [r2.1], k := r2.2.k }
        refine oracle loopFuel recFuel r2.1 (step / 10) stB

theorem refineUp_bounds (oracle : Nat → Bool) (fuel : Nat) (best step : ℚ)
    (st : RefState) (P : ℚ → Prop)
    (hbestP : P best) (hP : ∀ v, 1/10000 ≤ v → v ≤ 100 → P v)
    (hlo : 1/10000 ≤ best) (hhi : best ≤ 100) (hstep : 0 ≤ step)
    (htr : ∀ v ∈ st.trace, P v) :
    P (refineUp oracle fuel best step st).1
    ∧ 1/10000 ≤ (refineUp oracle fuel best step st).1
    ∧ (refineUp oracle fuel best step st).1 ≤ 100
    ∧ ∀ v ∈ (refineUp oracle fuel best step st).2.2.trace, P v := by
  induction fuel generalizing best st with
  | zero => exact ⟨hbestP, hlo, hhi, htr⟩
  | succ fuel ih =>
    rw [refineUp]
    by_cases hb : 100 < best + step
    · rw [if_pos hb]
      exact ⟨hbestP, hlo, hhi, htr⟩
    · rw [if_neg hb]
      have hble : best + step ≤ 100 := le_of_not_lt hb
      have hbge : 1/10000 ≤ best + step := by linarith
      have htr2 : ∀ v ∈ st.trace ++ [best + step], P v := by
        intro v hv
        rcases List.mem_append.mp hv with hv | hv
        · exact htr v hv
        · simp at hv
          subst hv
          exact hP _ hbge hble
      by_cases ho : oracle st.k
      · rw [if_pos ho]
        have hrest := ih (best + step) { trace := st.trace ++ [best + step], k := st.k + 1 }
          (hP _ hbge hble) hbge hble htr2
        match hrec : refineUp oracle fuel (best + step) step
            { trace := st.trace ++ [best + step], k := st.k + 1 } with
        | (bestF, upF, stF) =>
          rw [hrec] at hrest
          exact hrest
      · rw [if_neg ho]
        exact ⟨hbestP, hlo, hhi, htr2⟩

theorem refineDown_bounds (oracle : Nat → Bool) (fuel : Nat) (best step : ℚ)
    (st : RefState) (P : ℚ → Prop)
    (hbestP : P best) (hP : ∀ v, 1/10000 ≤ v → v ≤ 100 → P v)
    (hlo : 1/10000 ≤ best) (hhi : best ≤ 100) (hstep : 0 ≤ step)
    (htr : ∀ v ∈ st.trace, P v) :
    P (refineDown oracle fuel best step st).1
    ∧ 1/10000 ≤ (refineDown oracle fuel best step st).1
    ∧ (refineDown oracle fuel best step st).1 ≤ 100
    ∧ ∀ v ∈ (refineDown oracle fuel best step st).2.trace, P v := by
  induction fuel generalizing best st with
  | zero => exact ⟨hbestP, hlo, hhi, htr⟩
  | succ fuel ih =>
    rw [refineDown]
    by_cases hb : best - step < 1/10000
    · rw [if_pos hb]
      exact ⟨hbestP, hlo, hhi, htr⟩
    · rw [if_neg hb]
      have hbge : 1/10000 ≤ best - step := le_of_not_lt hb
      have hble : best - step ≤ 100 := by linarith
      have htr2 : ∀ v ∈ st.trace ++ [best - step], P v := by
        intro v hv
        rcases List.mem_append.mp hv with hv | hv
        · exact htr v hv
        · simp at hv
          subst hv
          exact hP _ hbge hble
      by_cases ho : oracle st.k
      · rw [if_pos ho]
        exact ih (best - step) { trace := st.trace ++ [best - step], k := st.k + 1 }
          (hP _ hbge hble) hbge hble htr2
      · rw [if_neg ho]
        exact ⟨hbestP, hlo, hhi, htr2⟩

/-- C7 (amended): provided the branch starts within `[0.0001, 100]`
(and the step is non-negative, as for the source's `0.1, 0.01, …`),
every value the refiner assigns to the node's `Len` — each trial value
and each loop-exit `best` — lies within `[0.0001, 100]`, for every
possible likelihood behaviour, and so does the final length. -/
theorem refine_bounds (oracle : Nat → Bool) (loopFuel recFuel : Nat)
    (len step : ℚ) (st : RefState)
    (hlo : 1/10000 ≤ len) (hhi : len ≤ 100) (hstep : 0 ≤ step)
    (htr : ∀ v ∈ st.trace, 1/10000 ≤ v ∧ v ≤ 100) :
    (∀ v ∈ (refine oracle loopFuel recFuel len step st).2.trace,
      1/10000 ≤ v ∧ v ≤ 100)
    ∧ 1/10000 ≤ (refine oracle loopFuel recFuel len step st).1
    ∧ (refine oracle loopFuel recFuel len step st).1 ≤ 100 := by
  induction recFuel generalizing len step st with
  | zero => exact ⟨htr, hlo, hhi⟩
  | succ recFuel ih =>
    rw [refine]
    by_cases hs : step < 1/1000
    · rw [if_pos hs]
      exact ⟨htr, hlo, hhi⟩
    · rw [if_neg hs]
      simp only []
      have hup := refineUp_bounds oracle loopFuel len step st
        (fun v => 1/10000 ≤ v ∧ v ≤ 100) ⟨hlo, hhi⟩ (fun v h1 h2 => ⟨h1, h2⟩)
        hlo hhi hstep htr
      obtain ⟨⟨h1lo, h1hi⟩, -, -, htr1⟩ := hup
      have htrA : ∀ v ∈ (refineUp oracle loopFuel len step st).2.2.trace
          ++ [(refineUp oracle loopFuel len step st).1], 1/10000 ≤ v ∧ v ≤ 100 := by
        intro v hv
        rcases List.mem_append.mp hv with hv | hv
        · exact htr1 v hv
        · simp at hv
          subst hv
          exact ⟨h1lo, h1hi⟩
      by_cases hu : (refineUp oracle loopFuel len step st).2.1
      · rw [if_pos hu]
        exact ih (refineUp oracle loopFuel len step st).1 (step / 10) _ h1lo h1hi
          (by linarith) htrA
      · rw [if_neg hu]
        have hdn := refineDown_bounds oracle loopFuel
          (refineUp oracle loopFuel len step st).1 step
          { trace := (refineUp oracle loopFuel len step st).2.2.trace
              ++ [(refineUp oracle loopFuel len step st).1],
            k := (refineUp oracle loopFuel len step st).2.2.k }
          (fun v => 1/10000 ≤ v ∧ v ≤ 100) ⟨h1lo, h1hi⟩ (fun v h1 h2 => ⟨h1, h2⟩)
          h1lo h1hi hstep htrA
        obtain ⟨⟨h2lo, h2hi⟩, -, -, htr2⟩ := hdn
        refine ih _ (step / 10) _ h2lo h2hi (by linarith) ?_
        intro v hv
        rcases List.mem_append.mp hv with hv | hv
        · exact htr2 v hv
        · simp at hv
          subst hv
          exact ⟨h2lo, h2hi⟩

/-- Witness for C7 (amended) at a concrete run: starting from the
default length 0.01 with step 0.1 under an always-accepting likelihood
oracle, every assigned value stays within `[0.0001, 100]`. -/
theorem refine_bounds_witness :
    (1 : ℚ)/10000 ≤ 1/100 ∧ (1 : ℚ)/100 ≤ 100
    ∧ ((∀ v ∈ (refine (fun _ => true) 1200 4 (1/100) (1/10)
          { trace := [], k := 0 }).2.trace, 1/10000 ≤ v ∧ v ≤ 100)
       ∧ 1/10000 ≤ (refine (fun _ => true) 1200 4 (1/100) (1/10)
           { trace := [], k := 0 }).1
       ∧ (refine (fun _ => true) 1200 4 (1/100) (1/10)
           { trace := [], k := 0 }).1 ≤ 100) :=
  ⟨by norm_num, by norm_num,
   refine_bounds (fun _ => true) 1200 4 (1/100) (1/10) { trace := [], k := 0 }
     (by norm_num) (by norm_num) (by norm_num) (by simp)⟩

/-- C7 counterexample: a node whose parsed branch length is 200 (the
reader accepts `:200`; `readBrLen` imposes no upper bound).  With every
trial rejected by the likelihood, `refine` still assigns
`n.Len = 199.9` (the first descent trial) and `n.Len = 200` (the
loop-exit writes `n.Len = best`), both above 100 — the claim that
every assigned value stays within `[0.0001, 100]` is false without a
precondition on the starting length. -/
theorem refine_assigns_above_100 :
    ((1999 : ℚ)/10) ∈ (refine (fun _ => false) 1 4 200 (1/10)
       { trace := [], k := 0 }).2.trace
    ∧ ((200 : ℚ)) ∈ (refine (fun _ => false) 1 4 200 (1/10)
       { trace := [], k := 0 }).2.trace
    ∧ ¬((1999 : ℚ)/10 ≤ 100) := by
  refine ⟨?_, ?_, by norm_num⟩ <;>
  · norm_num [refine, refineUp, refineDown]

end Likelihood
end Ramita

namespace Ramita
namespace Matrix

/-- Character data types of the matrix scanner (src/unnamed/part_002):
morphological data (valid states 0-7) and DNA data. -/
inductive DataType where
  | morphology
  | dna
deriving Repr, DecidableEq

/-- Modelled from the spec: `Unknown(type)` returns the all-states
sentinel for a data type.  The function's own file is absent from the
sources (only call sites survive), but the scanner encodes morphology
unknowns (`?`, `-`) as 255 and DNA unknowns as `A|C|G|T = 15` (spec
section 3), fixing the two values. -/
def Unknown : DataType → Nat
  | .morphology => 255
  | .dna => 15

/-- A record produced by the matrix scanner: the block index it was
read in, the block's data type, the taxon name, and its cells.  The
scanner is abstracted at the record level: `NewMatrix` consumes the
`s.Taxon()` records in scan order. -/
structure TaxonRec where
  block : Int
  type : DataType
  name : String
  chars : List Nat
deriving Repr, DecidableEq

/-- A terminal taxon with its accumulated character data. -/
structure Terminal where
  name : String
  chars : List Nat
deriving Repr, DecidableEq

/-- State of the `NewMatrix` loop (src/unnamed/part_001): current
block index (-1 before the first record), its data type, the total and
current-block character counts, the two growing unknown fills, the
taxa read in the current block, and the terminals in insertion order
(the first is the outgroup `Out`; Go's name map plus first-insert
pointer is modelled as an insertion-ordered list). -/
structure NMState where
  block : Int
  ct : DataType
  nchars : Nat
  cblock : Nat
  empty : List Nat
  empBlock : List Nat
  bmap : List String
  names : List Terminal
deriving Repr, DecidableEq

def lookupT (nm : String) (ts : List Terminal) : Option (List Nat) :=
  (ts.find? (fun t => t.name == nm)).map Terminal.chars

def updateChars (nm : String) (suf : List Nat) (ts : List Terminal) : List Terminal :=
  ts.map (fun t => if t.name == nm then { t with chars := t.chars ++ suf } else t)

/-- On a block transition, taxa not defined in the finished block get
that block's unknown fill appended. -/
def padMissing (bmap : List String) (empBlock : List Nat) (ts : List Terminal) :
    List Terminal :=
  ts.map (fun t => if bmap.contains t.name then t
                   else { t with chars := t.chars ++ empBlock })

/-- The new-block branch of the `NewMatrix` loop. -/
def transStep (st : NMState) (tx : TaxonRec) : NMState :=
  if tx.block = st.block then st
  else
    { block := tx.block
      ct := tx.type
      nchars := st.nchars + st.cblock
      cblock := tx.chars.length
      empty := st.empty ++ st.empBlock
      empBlock := List.replicate tx.chars.length (Unknown tx.type)
      bmap := []
      names := padMissing st.bmap st.empBlock st.names }

/-- The remainder of the loop body: terminal creation (initialized
with the current left fill `empty`) and cell append. -/
def addTaxon (st : NMState) (tx : TaxonRec) : NMState :=
  let ns := if (lookupT tx.name st.names).isNone
    then st.names ++ [{ name := tx.name, chars := st.empty }] else st.names
  { st with bmap := st.bmap ++ [tx.name], names := updateChars tx.name tx.chars ns }

/-- One iteration of the `NewMatrix` loop: block transition, then the
wrong-width and repeated-taxon checks, then the taxon update. -/
def nmStep (st : NMState) (tx : TaxonRec) : Except String NMState :=
  let st1 := transStep st tx
  if tx.chars.length ≠ st1.cblock then
    Except.error ("matrix: on block " ++ toString st1.block ++ ": taxon " ++ tx.name
      ++ " with wrong number of chars: " ++ toString tx.chars.length ++ ", want "
      ++ toString st1.cblock)
  else if st1.bmap.contains tx.name then
    Except.error ("matrix: on block " ++ toString st1.block ++ ": taxon "
      ++ tx.name ++ " repeated")
  else Except.ok (addTaxon st1 tx)

def initNM : NMState :=
  { block := -1, ct := .morphology, nchars := 0, cblock := 0,
    empty := [], empBlock := [], bmap := [], names := [] }

/-- `Matrix.IsValid`: all terminals carry the same number of
characters (compared against the outgroup, the first terminal). -/
def IsValid (ts : List Terminal) : Bool :=
  match ts with
  | [] => true
  | t :: _ => ts.all (fun u => u.chars.length == t.chars.length)

/-- `NewMatrix` over the record stream: fold the loop body, surface a
scanner error if any, apply the last-block fill, and validate. -/
def NewMatrix (recs : List TaxonRec) (scanErr : Option String) :
    Except String (List Terminal) :=
  match recs.foldlM nmStep initNM with
  | .error e => .error e
  | .ok st =>
    match scanErr with
    | some e => .error ("matrix: " ++ e)
    | none =>
      let ns := padMissing st.bmap st.empBlock st.names
      if IsValid ns then .ok ns else .error "matrix: bad formatted matrix"

/-- Spec side: the leading records of the stream belonging to block
`b`, and the remaining stream. -/
def takeBlock (b : Int) : List TaxonRec → List TaxonRec × List TaxonRec
  | [] => ([], [])
  | tx :: rest =>
    if tx.block = b then
      let p := takeBlock b rest
      (tx :: p.1, p.2)
    else ([], tx :: rest)

def chunksAux (b : Int) (cur : List TaxonRec) : List TaxonRec → List (List TaxonRec)
  | [] => [cur]
  | tx :: rest =>
    if tx.block = b then chunksAux b (cur ++ [tx]) rest
    else cur :: chunksAux tx.block [tx] rest

/-- Spec side: the maximal runs of adjacent records sharing a block
index (the blocks of the stream). -/
def blockChunks : List TaxonRec → List (List TaxonRec)
  | [] => []
  | tx :: rest => chunksAux tx.block [tx] rest

/-- The width of a block: the cell count of the first taxon read in it. -/
def chunkWidth (c : List TaxonRec) : Nat :=
  match c with
  | [] => 0
  | tx :: _ => tx.chars.length

/-- The unknown code of a block: determined by its first record's type. -/
def chunkUnknown (c : List TaxonRec) : Nat :=
  match c with
  | [] => 0
  | tx :: _ => Unknown tx.type

/-- Spec side: a taxon's cells for one block — its own record's cells
if it was read in the block, otherwise the block's unknown fill. -/
def contrib (nm : String) (c : List TaxonRec) : List Nat :=
  match c.find? (fun r => r.name == nm) with
  | some r => r.chars
  | none => List.replicate (chunkWidth c) (chunkUnknown c)

/-- Continuation semantics of the loop for one taxon name: given the
open block `b`, whether the name was already read in it (`seen`), and
the open block's unknown fill, the cells appended to that taxon's
vector by the remaining records plus the final fill. -/
def restChars (nm : String) : List TaxonRec → Int → Bool → List Nat → List Nat
  | [], _, seen, empBlock => if seen then [] else empBlock
  | tx :: rest, b, seen, empBlock =>
    if tx.block = b then
      if tx.name == nm then tx.chars ++ restChars nm rest b true empBlock
      else restChars nm rest b seen empBlock
    else
      (if seen then [] else empBlock)
        ++ (if tx.name == nm then
              tx.chars ++ restChars nm rest tx.block true
                (List.replicate tx.chars.length (Unknown tx.type))
            else
              restChars nm rest tx.block false
                (List.replicate tx.chars.length (Unknown tx.type)))

/-- The stream conditions the loop enforces, in linear form: within
the open block every record has the block's width and a fresh name. -/
def streamOK : List TaxonRec → Int → Nat → List String → Bool
  | [], _, _, _ => true
  | tx :: rest, b, w, bmap =>
    if tx.block = b then
      decide (tx.chars.length = w) && !(bmap.contains tx.name)
        && streamOK rest b w (bmap ++ [tx.name])
    else streamOK rest tx.block tx.chars.length [tx.name]

def namesOf (ts : List Terminal) : List String := ts.map Terminal.name

theorem find_name_map (nm : String) (f : Terminal → Terminal)
    (hf : ∀ t, (f t).name = t.name) (ts : List Terminal) :
    List.find? (fun t => t.name == nm) (ts.map f)
      = (List.find? (fun t => t.name == nm) ts).map f := by
  induction ts with
  | nil => rfl
  | cons t ts ih =>
    simp only [List.map_cons]
    by_cases h : t.name = nm
    · rw [List.find?_cons_of_pos _ (by simp [hf, h]),
        List.find?_cons_of_pos _ (by simp [h])]
      rfl
    · rw [List.find?_cons_of_neg _ (by simp [hf, h]),
        List.find?_cons_of_neg _ (by simp [h])]
      exact ih

theorem lookupT_updateChars (nm nm2 : String) (suf : List Nat) (ts : List Terminal) :
    lookupT nm2 (updateChars nm suf ts) =
      if nm2 = nm then (lookupT nm2 ts).map (· ++ suf) else lookupT nm2 ts := by
  have hn : ∀ t : Terminal,
      ((fun t : Terminal => if t.name == nm then { t with chars := t.chars ++ suf }
        else t) t).name = t.name := by
    intro t
    by_cases h : t.name = nm <;> simp [h]
  unfold lookupT updateChars
  rw [find_name_map nm2 _ hn]
  cases hfd : List.find? (fun t => t.name == nm2) ts with
  | none => by_cases h : nm2 = nm <;> simp [h]
  | some u =>
    have hu : u.name = nm2 := by
      have := List.find?_some hfd
      simpa using this
    by_cases h : nm2 = nm
    · subst h
      simp [Option.map_map, Function.comp, hu]
    · have hun : ¬u.name = nm := by
        rw [hu]
        exact h
      simp [Option.map_map, Function.comp, hun, h]

theorem lookupT_padMissing (nm : String) (bmap : List String) (emp : List Nat)
    (ts : List Terminal) :
    lookupT nm (padMissing bmap emp ts) =
      (lookupT nm ts).map (fun cs => if bmap.contains nm then cs else cs ++ emp) := by
  have hn : ∀ t : Terminal,
      ((fun t : Terminal => if bmap.contains t.name then t
        else { t with chars := t.chars ++ emp }) t).name = t.name := by
    intro t
    by_cases h : t.name ∈ bmap <;> simp [h]
  unfold lookupT padMissing
  rw [find_name_map nm _ hn]
  cases hfd : List.find? (fun t => t.name == nm) ts with
  | none => simp
  | some u =>
    have hu : u.name = nm := by
      have := List.find?_some hfd
      simpa using this
    by_cases h : nm ∈ bmap <;>
      simp [Option.map_map, Function.comp, hu, h]

theorem lookupT_append (nm : String) (ts us : List Terminal) :
    lookupT nm (ts ++ us) =
      match lookupT nm ts with
      | some cs => some cs
      | none => lookupT nm us := by
  unfold lookupT
  rw [List.find?_append]
  cases hfd : List.find? (fun t => t.name == nm) ts with
  | none => simp
  | some u => simp

theorem not_mem_of_lookupT_none (nm : String) (ts : List Terminal)
    (h : lookupT nm ts = none) : nm ∉ namesOf ts := by
  intro hmem
  obtain ⟨t, ht, hn⟩ := List.mem_map.mp hmem
  cases hfd : List.find? (fun t => t.name == nm) ts with
  | some u => simp [lookupT, hfd] at h
  | none =>
    have := List.find?_eq_none.mp hfd t ht
    simp [hn] at this

theorem namesOf_updateChars (nm : String) (suf : List Nat) (ts : List Terminal) :
    namesOf (updateChars nm suf ts) = namesOf ts := by
  unfold namesOf updateChars
  rw [List.map_map]
  apply List.map_congr_left
  intro t _
  by_cases h : t.name = nm <;> simp [h]

theorem namesOf_padMissing (bmap : List String) (emp : List Nat) (ts : List Terminal) :
    namesOf (padMissing bmap emp ts) = namesOf ts := by
  unfold namesOf padMissing
  rw [List.map_map]
  apply List.map_congr_left
  intro t _
  by_cases h : t.name ∈ bmap <;> simp [h]

theorem lookupT_of_mem (t : Terminal) (ts : List Terminal)
    (hnd : (namesOf ts).Nodup) (ht : t ∈ ts) :
    lookupT t.name ts = some t.chars := by
  induction ts with
  | nil => cases ht
  | cons u ts ih =>
    have hnd2 : u.name ∉ namesOf ts ∧ (namesOf ts).Nodup := by
      have := hnd
      simp only [namesOf, List.map_cons, List.nodup_cons] at this
      exact ⟨this.1, this.2⟩
    rcases List.mem_cons.mp ht with h | h
    · subst h
      simp [lookupT, List.find?_cons_of_pos]
    · have hne : ¬(u.name == t.name) = true := by
        simp only [beq_iff_eq]
        intro he
        exact hnd2.1 (he ▸ List.mem_map_of_mem Terminal.name h)
      have hstep : lookupT t.name (u :: ts) = lookupT t.name ts := by
        unfold lookupT
        rw [List.find?_cons_of_neg _ (by simpa using hne)]
      rw [hstep]
      exact ih hnd2.2 h

theorem nm_foldlM_cons (st : NMState) (tx : TaxonRec) (rest : List TaxonRec)
    (stF : NMState) (h : List.foldlM nmStep st (tx :: rest) = Except.ok stF) :
    ∃ st1, nmStep st tx = Except.ok st1
      ∧ List.foldlM nmStep st1 rest = Except.ok stF := by
  rw [List.foldlM_cons] at h
  cases hs : nmStep st tx with
  | error e =>
    rw [hs] at h
    have h2 : (Except.error e : Except String NMState) = Except.ok stF := h
    cases h2
  | ok st1 =>
    rw [hs] at h
    exact ⟨st1, rfl, h⟩

theorem nmStep_ok_elim (st st1 : NMState) (tx : TaxonRec)
    (h : nmStep st tx = Except.ok st1) :
    tx.chars.length = (transStep st tx).cblock
    ∧ ((transStep st tx).bmap.contains tx.name) = false
    ∧ st1 = addTaxon (transStep st tx) tx := by
  simp only [nmStep] at h
  split at h
  next hw => cases h
  next hw =>
    split at h
    next hb => cases h
    next hb =>
      refine ⟨not_not.mp hw, by simpa using hb, ?_⟩
      cases h
      rfl

theorem fold_streamOK :
    ∀ (rest : List TaxonRec) (st stF : NMState),
    List.foldlM nmStep st rest = Except.ok stF →
    streamOK rest st.block st.cblock st.bmap = true := by
  intro rest
  induction rest with
  | nil => intro st stF _; rfl
  | cons tx rest ih =>
    intro st stF h
    obtain ⟨st1, hstep, hrest⟩ := nm_foldlM_cons _ _ _ _ h
    obtain ⟨hw, hb, hst1⟩ := nmStep_ok_elim _ _ _ hstep
    have hih := ih st1 stF hrest
    rw [streamOK]
    by_cases hblk : tx.block = st.block
    · rw [if_pos hblk]
      have htr : transStep st tx = st := by rw [transStep, if_pos hblk]
      rw [htr] at hw hb hst1
      have h1 : streamOK rest st.block st.cblock (st.bmap ++ [tx.name]) = true := by
        rw [hst1] at hih
        simpa [addTaxon] using hih
      have hb2 : tx.name ∉ st.bmap := by simpa using hb
      simp [hw, h1, hb2]
    · rw [if_neg hblk]
      have htr : (transStep st tx).block = tx.block
          ∧ (transStep st tx).cblock = tx.chars.length
          ∧ (transStep st tx).bmap = ([] : List String) := by
        rw [transStep, if_neg hblk]
        exact ⟨rfl, rfl, rfl⟩
      rw [hst1] at hih
      simpa [addTaxon, htr.1, htr.2.1, htr.2.2] using hih

theorem fold_nodup :
    ∀ (rest : List TaxonRec) (st stF : NMState),
    List.foldlM nmStep st rest = Except.ok stF →
    (namesOf st.names).Nodup → (namesOf stF.names).Nodup := by
  intro rest
  induction rest with
  | nil =>
    intro st stF h hnd
    have h2 : (Except.ok st : Except String NMState) = Except.ok stF := h
    cases h2
    exact hnd
  | cons tx rest ih =>
    intro st stF h hnd
    obtain ⟨st1, hstep, hrest⟩ := nm_foldlM_cons _ _ _ _ h
    obtain ⟨hw, hb, hst1⟩ := nmStep_ok_elim _ _ _ hstep
    refine ih st1 stF hrest ?_
    rw [hst1]
    have hndT : (namesOf (transStep st tx).names).Nodup := by
      by_cases hblk : tx.block = st.block
      · rw [transStep, if_pos hblk]
        exact hnd
      · rw [transStep, if_neg hblk]
        simpa [namesOf_padMissing] using hnd
    simp only [addTaxon, namesOf_updateChars]
    by_cases hlk : (lookupT tx.name (transStep st tx).names).isNone
    · rw [if_pos hlk]
      have hnm : tx.name ∉ namesOf (transStep st tx).names :=
        not_mem_of_lookupT_none _ _ (Option.isNone_iff_eq_none.mp hlk)
      simp only [namesOf, List.map_append, List.map_cons, List.map_nil]
      rw [List.nodup_append]
      refine ⟨hndT, List.nodup_singleton _, ?_⟩
      intro a ha hmem
      simp only [List.mem_singleton] at hmem
      exact hnm (hmem ▸ ha)
    · rw [if_neg hlk]
      exact hndT

theorem lookupT_snoc_other (nm n2 : String) (cs : List Nat) (ts : List Terminal)
    (h : ¬n2 = nm) : lookupT nm (ts ++ [{ name := n2, chars := cs }]) = lookupT nm ts := by
  rw [lookupT_append]
  cases hl : lookupT nm ts with
  | some u => rfl
  | none => simp [lookupT, h]

theorem lookupT_snoc_self (nm : String) (cs : List Nat) (ts : List Terminal)
    (h : lookupT nm ts = none) :
    lookupT nm (ts ++ [{ name := nm, chars := cs }]) = some cs := by
  rw [lookupT_append, h]
  simp [lookupT]

theorem contains_snoc_ne (l : List String) (a x : String) (h : ¬a = x) :
    (l ++ [a]).contains x = l.contains x := by
  simp [h]
  exact fun hx => absurd hx.symm h

theorem contains_snoc_self (l : List String) (a : String) :
    (l ++ [a]).contains a = true := by
  simp

theorem addTaxon_block (st : NMState) (tx : TaxonRec) :
    (addTaxon st tx).block = st.block := rfl

theorem addTaxon_empty (st : NMState) (tx : TaxonRec) :
    (addTaxon st tx).empty = st.empty := rfl

theorem addTaxon_empBlock (st : NMState) (tx : TaxonRec) :
    (addTaxon st tx).empBlock = st.empBlock := rfl

theorem addTaxon_bmap (st : NMState) (tx : TaxonRec) :
    (addTaxon st tx).bmap = st.bmap ++ [tx.name] := rfl

theorem addTaxon_names (st : NMState) (tx : TaxonRec) :
    (addTaxon st tx).names = updateChars tx.name tx.chars
      (if (lookupT tx.name st.names).isNone
       then st.names ++ [{ name := tx.name, chars := st.empty }] else st.names) := rfl

theorem lookupT_addTaxon_self (st : NMState) (tx : TaxonRec) :
    lookupT tx.name (addTaxon st tx).names =
      some ((match lookupT tx.name st.names with
             | some cs => cs
             | none => st.empty) ++ tx.chars) := by
  rw [addTaxon_names, lookupT_updateChars, if_pos rfl]
  cases hl : lookupT tx.name st.names with
  | some cs =>
    rw [if_neg (by simp [hl])]
    rw [hl]
    rfl
  | none =>
    rw [if_pos (by simp [hl])]
    rw [lookupT_snoc_self _ _ _ hl]
    rfl

theorem lookupT_addTaxon_other (st : NMState) (tx : TaxonRec) (nm : String)
    (h : ¬tx.name = nm) :
    lookupT nm (addTaxon st tx).names = lookupT nm st.names := by
  rw [addTaxon_names, lookupT_updateChars, if_neg (fun hx => h hx.symm)]
  split
  · rw [lookupT_snoc_other _ _ _ _ h]
  · rfl

theorem fold_chars (nm : String) :
    ∀ (rest : List TaxonRec) (st stF : NMState),
    List.foldlM nmStep st rest = Except.ok stF →
    lookupT nm (padMissing stF.bmap stF.empBlock stF.names) =
      (match lookupT nm st.names with
       | some cs =>
         some (cs ++ restChars nm rest st.block (st.bmap.contains nm) st.empBlock)
       | none =>
         if rest.any (fun r => r.name == nm) then
           some (st.empty ++ restChars nm rest st.block false st.empBlock)
         else none) := by
  intro rest
  induction rest with
  | nil =>
    intro st stF h
    have h2 : (Except.ok st : Except String NMState) = Except.ok stF := h
    cases h2
    rw [lookupT_padMissing]
    cases hl : lookupT nm st.names with
    | none => simp
    | some cs =>
      simp only [restChars]
      cases hc : st.bmap.contains nm <;> simp [hc]
  | cons tx rest ih =>
    intro st stF h
    obtain ⟨st1, hstep, hrest⟩ := nm_foldlM_cons _ _ _ _ h
    obtain ⟨hw, hb, hst1⟩ := nmStep_ok_elim _ _ _ hstep
    rw [ih st1 stF hrest]
    subst hst1
    by_cases hblk : tx.block = st.block
    · have htr : transStep st tx = st := by rw [transStep, if_pos hblk]
      rw [htr] at hb ⊢
      by_cases hnm : tx.name = nm
      · subst hnm
        have hbm : (addTaxon st tx).bmap.contains tx.name = true := by
          rw [addTaxon_bmap]
          exact contains_snoc_self _ _
        cases hl : lookupT tx.name st.names with
        | some cs =>
          have hlook : lookupT tx.name (addTaxon st tx).names
              = some (cs ++ tx.chars) := by
            rw [lookupT_addTaxon_self, hl]
          simp only [hlook, hl, hbm, addTaxon_block, addTaxon_empBlock, restChars, hblk]
          simp [List.append_assoc]
        | none =>
          have hlook : lookupT tx.name (addTaxon st tx).names
              = some (st.empty ++ tx.chars) := by
            rw [lookupT_addTaxon_self, hl]
          simp only [hlook, hl, hbm, addTaxon_block, addTaxon_empBlock,
            addTaxon_empty, restChars, hblk]
          simp [List.append_assoc]
      · have hbm : (addTaxon st tx).bmap.contains nm = st.bmap.contains nm := by
          rw [addTaxon_bmap]
          exact contains_snoc_ne _ _ _ hnm
        have hlook := lookupT_addTaxon_other st tx nm hnm
        cases hl : lookupT nm st.names with
        | some cs =>
          rw [hl] at hlook
          simp only [hlook, hl, hbm, addTaxon_block, addTaxon_empBlock, restChars, hblk]
          simp [hnm]
        | none =>
          rw [hl] at hlook
          have hany : ((tx :: rest).any (fun r => r.name == nm))
              = rest.any (fun r => r.name == nm) := by
            simp [hnm]
          simp only [hlook, hl, hany, addTaxon_block, addTaxon_empBlock,
            addTaxon_empty, restChars, hblk]
          simp [hnm]
    · have hTnames : (transStep st tx).names = padMissing st.bmap st.empBlock st.names := by
        rw [transStep, if_neg hblk]
      have hTblock : (transStep st tx).block = tx.block := by
        rw [transStep, if_neg hblk]
      have hTempty : (transStep st tx).empty = st.empty ++ st.empBlock := by
        rw [transStep, if_neg hblk]
      have hTempBlock : (transStep st tx).empBlock
          = List.replicate tx.chars.length (Unknown tx.type) := by
        rw [transStep, if_neg hblk]
      have hTbmap : (transStep st tx).bmap = [] := by
        rw [transStep, if_neg hblk]
      have hTl : lookupT nm (transStep st tx).names
          = (lookupT nm st.names).map
              (fun cs => if st.bmap.contains nm then cs else cs ++ st.empBlock) := by
        rw [hTnames, lookupT_padMissing]
      by_cases hnm : tx.name = nm
      · subst hnm
        have hbm : (addTaxon (transStep st tx) tx).bmap.contains tx.name = true := by
          rw [addTaxon_bmap, hTbmap]
          exact contains_snoc_self _ _
        have hlook := lookupT_addTaxon_self (transStep st tx) tx
        rw [hTl] at hlook
        cases hl : lookupT tx.name st.names with
        | some cs =>
          rw [hl] at hlook
          simp only [Option.map_some'] at hlook
          simp only [hlook, hl, hbm, addTaxon_block, addTaxon_empBlock,
            hTblock, hTempBlock, restChars, if_neg hblk]
          cases hc : st.bmap.contains tx.name <;> simp [hc, List.append_assoc]
        | none =>
          rw [hl] at hlook
          simp only [Option.map_none'] at hlook
          simp only [hlook, hl, hbm, addTaxon_block, addTaxon_empBlock,
            addTaxon_empty, hTblock, hTempBlock, hTempty, restChars, if_neg hblk]
          simp [List.append_assoc]
      · have hbm : (addTaxon (transStep st tx) tx).bmap.contains nm = false := by
          rw [addTaxon_bmap, hTbmap]
          simp only [List.nil_append]
          simp [hnm]
          exact fun hx => hnm hx.symm
        have hlook := lookupT_addTaxon_other (transStep st tx) tx nm hnm
        rw [hTl] at hlook
        cases hl : lookupT nm st.names with
        | some cs =>
          rw [hl] at hlook
          simp only [Option.map_some'] at hlook
          simp only [hlook, hl, hbm, addTaxon_block, addTaxon_empBlock,
            hTblock, hTempBlock, restChars, if_neg hblk]
          cases hc : st.bmap.contains nm <;> simp [hc, hnm, List.append_assoc]
        | none =>
          rw [hl] at hlook
          simp only [Option.map_none'] at hlook
          have hany : ((tx :: rest).any (fun r => r.name == nm))
              = rest.any (fun r => r.name == nm) := by
            simp [hnm]
          simp only [hlook, hl, hany, hbm, addTaxon_block, addTaxon_empBlock,
            addTaxon_empty, hTblock, hTempBlock, hTempty, restChars, if_neg hblk]
          simp [hnm, List.append_assoc]

theorem chunksAux_spec :
    ∀ (rest : List TaxonRec) (b : Int) (cur : List TaxonRec),
    chunksAux b cur rest
      = (cur ++ (takeBlock b rest).1) :: blockChunks (takeBlock b rest).2 := by
  intro rest
  induction rest with
  | nil => intro b cur; simp [chunksAux, takeBlock, blockChunks]
  | cons tx rest ih =>
    intro b cur
    by_cases hblk : tx.block = b
    · rw [chunksAux, if_pos hblk, takeBlock, if_pos hblk]
      rw [ih b (cur ++ [tx])]
      simp
    · rw [chunksAux, if_neg hblk, takeBlock, if_neg hblk]
      simp only [blockChunks]
      rw [List.append_nil]

theorem blockChunks_cons (tx : TaxonRec) (rest : List TaxonRec) :
    blockChunks (tx :: rest)
      = (tx :: (takeBlock tx.block rest).1)
          :: blockChunks (takeBlock tx.block rest).2 := by
  rw [blockChunks, chunksAux_spec]
  rfl

theorem restChars_chunks (nm : String) :
    ∀ (rest : List TaxonRec) (b : Int) (w : Nat) (bmap : List String)
    (empBlock : List Nat),
    streamOK rest b w bmap = true →
    restChars nm rest b (bmap.contains nm) empBlock =
      (if bmap.contains nm then []
       else match (takeBlock b rest).1.find? (fun r => r.name == nm) with
            | some r => r.chars
            | none => empBlock)
      ++ ((blockChunks (takeBlock b rest).2).flatMap (contrib nm)) := by
  intro rest
  induction rest with
  | nil =>
    intro b w bmap empBlock _
    cases hc : bmap.contains nm <;>
      simp [restChars, takeBlock, blockChunks, hc]
  | cons tx rest ih =>
    intro b w bmap empBlock h
    by_cases hblk : tx.block = b
    · rw [streamOK, if_pos hblk] at h
      simp only [Bool.and_eq_true, decide_eq_true_eq, Bool.not_eq_true, Bool.not_eq_true'] at h
      obtain ⟨⟨hwid, hnb⟩, hrec⟩ := h
      rw [restChars, if_pos hblk, takeBlock, if_pos hblk]
      by_cases hnm : tx.name = nm
      · subst hnm
        have hc0 : bmap.contains tx.name = false := hnb
        have hc1 : (bmap ++ [tx.name]).contains tx.name = true :=
          contains_snoc_self _ _
        have hih := ih b w (bmap ++ [tx.name]) empBlock hrec
        rw [hc1] at hih
        rw [if_pos (by simp : (tx.name == tx.name) = true), hih, hc0]
        rw [List.find?_cons_of_pos _ (by simp)]
        simp
      · have hbq : (tx.name == nm) = false := by
          simp [hnm]
        have hc1 : (bmap ++ [tx.name]).contains nm = bmap.contains nm :=
          contains_snoc_ne _ _ _ hnm
        have hih := ih b w (bmap ++ [tx.name]) empBlock hrec
        rw [hc1] at hih
        rw [if_neg (by simp [hnm] : ¬((tx.name == nm) = true)), hih]
        rw [List.find?_cons_of_neg _ (by simp [hnm])]
    · rw [streamOK, if_neg hblk] at h
      rw [restChars, if_neg hblk, takeBlock, if_neg hblk]
      rw [blockChunks_cons]
      by_cases hnm : tx.name = nm
      · subst hnm
        have hc1 : ([tx.name] : List String).contains tx.name = true := by
          simp
        have hih := ih tx.block tx.chars.length [tx.name]
          (List.replicate tx.chars.length (Unknown tx.type)) h
        rw [hc1] at hih
        rw [if_pos (by simp : (tx.name == tx.name) = true), hih]
        have hcon : contrib tx.name (tx :: (takeBlock tx.block rest).1) = tx.chars := by
          rw [contrib, List.find?_cons_of_pos _ (by simp)]
        simp only [List.flatMap_cons, hcon]
        cases hc : bmap.contains tx.name <;> simp [hc, List.append_assoc]
      · have hc1 : ([tx.name] : List String).contains nm = false := by
          simp [hnm]
          exact fun hx => hnm hx.symm
        have hih := ih tx.block tx.chars.length [tx.name]
          (List.replicate tx.chars.length (Unknown tx.type)) h
        rw [hc1] at hih
        rw [if_neg (by simp [hnm] : ¬((tx.name == nm) = true)), hih]
        have hcon : contrib nm (tx :: (takeBlock tx.block rest).1)
            = (match (takeBlock tx.block rest).1.find? (fun r => r.name == nm) with
               | some r => r.chars
               | none => List.replicate tx.chars.length (Unknown tx.type)) := by
          rw [contrib, List.find?_cons_of_neg _ (by simp [hnm])]
          cases hfd : (takeBlock tx.block rest).1.find? (fun r => r.name == nm) with
          | some r => rfl
          | none => rfl
        simp only [List.flatMap_cons, hcon]
        cases hc : bmap.contains nm <;> simp [hc, List.append_assoc]

theorem restChars_top (nm : String) (recs : List TaxonRec)
    (h : streamOK recs (-1) 0 [] = true) :
    restChars nm recs (-1) false [] = (blockChunks recs).flatMap (contrib nm) := by
  cases recs with
  | nil => simp [restChars, blockChunks]
  | cons tx rest =>
    have hfalse : (([] : List String).contains nm) = false := rfl
    rw [← hfalse]
    exact (by
      have := restChars_chunks nm (tx :: rest) (-1) 0 [] [] h
      rw [this]
      rw [hfalse]
      by_cases hblk : tx.block = (-1 : Int)
      · rw [streamOK, if_pos hblk] at h
        simp only [Bool.and_eq_true, decide_eq_true_eq, Bool.not_eq_true, Bool.not_eq_true'] at h
        obtain ⟨⟨hwid, _⟩, _⟩ := h
        rw [takeBlock, if_pos hblk]
        rw [blockChunks_cons]
        have htb : (takeBlock tx.block rest) = (takeBlock (-1 : Int) rest) := by
          rw [hblk]
        rw [htb]
        simp only [List.flatMap_cons, if_false]
        have hcon : contrib nm (tx :: (takeBlock (-1 : Int) rest).1)
            = (match (tx :: (takeBlock (-1 : Int) rest).1).find?
                  (fun r => r.name == nm) with
               | some r => r.chars
               | none => []) := by
          rw [contrib]
          cases hfd : (tx :: (takeBlock (-1 : Int) rest).1).find?
              (fun r => r.name == nm) with
          | some r => rfl
          | none =>
            simp only [chunkWidth, chunkUnknown, hwid, List.replicate]
        rw [hcon]
        rw [List.find?_cons]
        cases hq : (tx.name == nm) <;> simp [List.append_assoc]
      · rw [takeBlock, if_neg hblk]
        rw [blockChunks_cons]
        simp only [List.flatMap_cons, if_false, List.find?_nil]
        simp)

theorem chunk_widths_aux :
    ∀ (rest : List TaxonRec) (b : Int) (w : Nat) (bmap : List String)
    (cur : List TaxonRec),
    streamOK rest b w bmap = true →
    (∀ r ∈ cur, r.chars.length = w) → chunkWidth cur = w →
    ∀ c ∈ chunksAux b cur rest, ∀ r ∈ c, r.chars.length = chunkWidth c := by
  intro rest
  induction rest with
  | nil =>
    intro b w bmap cur _ hc hw c hmem r hr
    rw [chunksAux] at hmem
    simp only [List.mem_singleton] at hmem
    subst hmem
    rw [hw]
    exact hc r hr
  | cons tx rest ih =>
    intro b w bmap cur h hc hw c hmem r hr
    by_cases hblk : tx.block = b
    · rw [streamOK, if_pos hblk] at h
      simp only [Bool.and_eq_true, decide_eq_true_eq, Bool.not_eq_true, Bool.not_eq_true'] at h
      obtain ⟨⟨hwid, _⟩, hrec⟩ := h
      rw [chunksAux, if_pos hblk] at hmem
      refine ih b w (bmap ++ [tx.name]) (cur ++ [tx]) hrec ?_ ?_ c hmem r hr
      · intro r2 hr2
        rcases List.mem_append.mp hr2 with h2 | h2
        · exact hc r2 h2
        · simp only [List.mem_singleton] at h2
          subst h2
          exact hwid
      · cases cur with
        | nil => simpa [chunkWidth] using hwid
        | cons c0 cs => simpa [chunkWidth] using hw
    · rw [streamOK, if_neg hblk] at h
      rw [chunksAux, if_neg hblk] at hmem
      rcases List.mem_cons.mp hmem with h2 | h2
      · subst h2
        rw [hw]
        exact hc r hr
      · refine ih tx.block tx.chars.length [tx.name] [tx] h ?_ rfl c h2 r hr
        intro r2 hr2
        simp only [List.mem_singleton] at hr2
        subst hr2
        rfl

theorem blockChunks_widths (recs : List TaxonRec)
    (h : streamOK recs (-1) 0 [] = true) :
    ∀ c ∈ blockChunks recs, ∀ r ∈ c, r.chars.length = chunkWidth c := by
  cases recs with
  | nil => intro c hmem; cases hmem
  | cons tx rest =>
    rw [blockChunks]
    by_cases hblk : tx.block = (-1 : Int)
    · rw [streamOK, if_pos hblk] at h
      simp only [Bool.and_eq_true, decide_eq_true_eq, Bool.not_eq_true, Bool.not_eq_true'] at h
      obtain ⟨⟨hwid, _⟩, hrec⟩ := h
      refine chunk_widths_aux rest tx.block 0 [tx.name] [tx] (hblk ▸ hrec) ?_ ?_
      · intro r hr
        simp only [List.mem_singleton] at hr
        subst hr
        exact hwid
      · simpa [chunkWidth] using hwid
    · rw [streamOK, if_neg hblk] at h
      refine chunk_widths_aux rest tx.block tx.chars.length [tx.name] [tx] h ?_ rfl
      intro r hr
      simp only [List.mem_singleton] at hr
      subst hr
      rfl

theorem contrib_length (nm : String) (c : List TaxonRec)
    (hc : ∀ r ∈ c, r.chars.length = chunkWidth c) :
    (contrib nm c).length = chunkWidth c := by
  rw [contrib]
  cases hfd : c.find? (fun r => r.name == nm) with
  | some r => exact hc r (List.mem_of_find?_eq_some hfd)
  | none => simp

/-- C8: every matrix the reader accepts is block-structured: each
terminal's state vector is exactly the concatenation, over the blocks
of the record stream, of its own cells when it was read in the block
and of `replicate width Unknown(type)` (the block's unknown fill) when
it was not; consequently its length is the sum of the block widths,
each width being the cell count of the first taxon read in its block. -/
theorem newMatrix_block_structure (recs : List TaxonRec) (ts : List Terminal)
    (h : NewMatrix recs none = Except.ok ts) :
    ∀ t ∈ ts,
      t.chars = (blockChunks recs).flatMap (contrib t.name)
      ∧ t.chars.length = ((blockChunks recs).map chunkWidth).sum := by
  intro t ht
  rw [NewMatrix] at h
  cases hfold : List.foldlM nmStep initNM recs with
  | error e =>
    rw [hfold] at h
    cases h
  | ok stF =>
    rw [hfold] at h
    simp only [] at h
    split at h
    next hIV =>
      have hts : ts = padMissing stF.bmap stF.empBlock stF.names := by
        cases h
        rfl
      have hnd : (namesOf ts).Nodup := by
        rw [hts, namesOf_padMissing]
        exact fold_nodup recs initNM stF hfold (by simp [initNM, namesOf])
      have hlook : lookupT t.name ts = some t.chars := lookupT_of_mem t ts hnd ht
      have hmain := fold_chars t.name recs initNM stF hfold
      rw [← hts] at hmain
      rw [hlook] at hmain
      have hempty : lookupT t.name initNM.names = none := rfl
      rw [hempty] at hmain
      have hOK : streamOK recs (-1) 0 [] = true := by
        have := fold_streamOK recs initNM stF hfold
        exact this
      have hchars : t.chars = restChars t.name recs (-1) false [] := by
        by_cases hany : recs.any (fun r => r.name == t.name) = true
        · rw [if_pos hany] at hmain
          have h2 := Option.some.inj hmain
          simpa [initNM] using h2
        · rw [if_neg hany] at hmain
          cases hmain
      have hflat : t.chars = (blockChunks recs).flatMap (contrib t.name) := by
        rw [hchars]
        exact restChars_top t.name recs hOK
      refine ⟨hflat, ?_⟩
      rw [hflat, List.length_flatMap]
      congr 1
      apply List.map_congr_left
      intro c hcmem
      exact contrib_length t.name c (blockChunks_widths recs hOK c hcmem)
    next hIV =>
      cases h

def c8recs : List TaxonRec :=
  [{ block := 1, type := .dna, name := "Alpha", chars := [1, 2] },
   { block := 1, type := .dna, name := "Beta", chars := [4, 8] },
   { block := 2, type := .morphology, name := "Alpha", chars := [1] }]

/-- Witness for C8 at a concrete two-block stream: taxon `Beta` is
missing from the morphology block and gets its unknown code 255; its
vector matches the per-block contributions and the summed widths. -/
theorem newMatrix_block_structure_witness :
    (({ name := "Beta", chars := [4, 8, 255] } : Terminal).chars
        = (blockChunks c8recs).flatMap (contrib "Beta"))
    ∧ ({ name := "Beta", chars := [4, 8, 255] } : Terminal).chars.length
        = ((blockChunks c8recs).map chunkWidth).sum :=
  newMatrix_block_structure c8recs
    [{ name := "Alpha", chars := [1, 2, 1] }, { name := "Beta", chars := [4, 8, 255] }]
    rfl { name := "Beta", chars := [4, 8, 255] } (by decide)

end Matrix
end Ramita

namespace Ramita
namespace Parsimony

theorem countPen_le_length (ls rs : List Nat) : countPen ls rs ≤ ls.length := by
  induction ls generalizing rs with
  | nil => simp [countPen]
  | cons l ls ih =>
    cases rs with
    | nil => simp [countPen]
    | cons r rs =>
      simp only [countPen, List.zipWith_cons_cons, List.sum_cons, List.length_cons]
      have := ih rs
      simp only [countPen] at this
      split <;> omega

theorem or_eq_zero_right (a b : Nat) (h : a ||| b = 0) : b = 0 := by
  apply Nat.eq_of_testBit_eq
  intro i
  rw [Nat.zero_testBit]
  have h2 := congrArg (fun x => Nat.testBit x i) h
  simp only [Nat.testBit_or, Nat.zero_testBit, Bool.or_eq_false_iff] at h2
  exact h2.2

theorem and_or_ne_zero (o t v : Nat) (h : ¬o &&& v = 0) : ¬o &&& (t ||| v) = 0 := by
  rw [Nat.and_or_distrib_left]
  exact fun h2 => h (or_eq_zero_right _ _ h2)

/-- One column of the key Fitch fact behind the Wagner bound: splicing
a new state `t` below a child with state `v` adds at most one to the
combined penalty of that column. -/
theorem pen_fitch_le (o t v : Nat) :
    (if t &&& v = 0 then 1 else 0) + (if o &&& fitchChar t v = 0 then 1 else 0)
      ≤ (if o &&& v = 0 then 1 else 0) + 1 := by
  unfold fitchChar
  by_cases htv : t &&& v = 0
  · rw [if_pos htv, if_pos htv]
    by_cases hov : o &&& v = 0
    · rw [if_pos hov]
      split <;> omega
    · rw [if_neg hov, if_neg (and_or_ne_zero o t v hov)]
  · rw [if_neg htv, if_neg htv]
    split <;> split <;> omega

/-- Splicing a leaf with states `t` below the child with states `v` of
a node whose other child has states `o` raises the two penalties by at
most the number of columns. -/
theorem countPen_insert_le (o t v : List Nat)
    (ho : o.length = v.length) (ht : t.length = v.length) :
    countPen t v + countPen o (List.zipWith fitchChar t v)
      ≤ countPen o v + v.length := by
  induction v generalizing o t with
  | nil => simp [countPen]
  | cons vh vt ih =>
    cases o with
    | nil => simp at ho
    | cons oh ot =>
      cases t with
      | nil => simp at ht
      | cons th tt =>
        simp only [List.length_cons, Nat.add_right_cancel_iff] at ho ht
        simp only [countPen, List.zipWith_cons_cons, List.sum_cons, List.length_cons]
        have hcol := pen_fitch_le oh th vh
        have hrec := ih ot tt ho ht
        simp only [countPen] at hrec
        omega

theorem getN_append_lt (ns ms : List PNode) (j : Nat) (h : j < ns.length) :
    getN (ns ++ ms) j = getN ns j := by
  unfold getN
  rw [List.getD_append _ _ _ _ h]

theorem getN_append_fst (ns : List PNode) (a b : PNode) :
    getN (ns ++ [a, b]) ns.length = a := by
  unfold getN
  simp only [List.getD_eq_getElem?_getD]
  rw [List.getElem?_append_right (le_refl _)]
  simp

theorem getN_append_snd (ns : List PNode) (a b : PNode) :
    getN (ns ++ [a, b]) (ns.length + 1) = b := by
  unfold getN
  simp only [List.getD_eq_getElem?_getD]
  rw [List.getElem?_append_right (by omega : ns.length ≤ ns.length + 1)]
  simp

/-- A `setN` whose update function leaves `anc` alone leaves every
node's `anc` alone. -/
theorem getN_setN_anc (ns : List PNode) (i j : Nat) (f : PNode → PNode)
    (hf : ∀ nd, (f nd).anc = nd.anc) :
    (getN (setN ns i f) j).anc = (getN ns j).anc := by
  by_cases hj : j = i
  · subst hj
    by_cases hlt : j < ns.length
    · rw [getN_setN_self _ _ hlt, hf]
    · rw [getN_setN_self_of_le _ _ (by omega)]
  · rw [getN_setN_ne _ _ _ hj]

theorem optimize_anc (ns : List PNode) (i j : Nat) :
    (getN (optimize ns i) j).anc = (getN ns j).anc :=
  (optimize_preserves ns i j).1

theorem increBound_length (fuel : Nat) :
    ∀ (ns : List PNode) (n : Option Nat) (c b : Nat),
    (increBound fuel ns n c b).1.length = ns.length := by
  induction fuel with
  | zero => intro ns n c b; cases n <;> rfl
  | succ fuel ih =>
    intro ns n c b
    cases n with
    | none => rfl
    | some i =>
      rw [increBound]
      by_cases ht : (getN ns i).isTerm
      · rw [if_pos ht]
        exact ih ns _ c b
      · rw [if_neg ht]
        by_cases hb : b < (getN (optimize ns i) i).cost
        · rw [if_pos hb]
          exact optimize_length ns i
        · rw [if_neg hb]
          rw [ih _ _ _ _]
          exact optimize_length ns i

theorem increBound_anc (fuel : Nat) :
    ∀ (ns : List PNode) (n : Option Nat) (c b : Nat) (j : Nat),
    (getN (increBound fuel ns n c b).1 j).anc = (getN ns j).anc := by
  induction fuel with
  | zero => intro ns n c b j; cases n <;> rfl
  | succ fuel ih =>
    intro ns n c b j
    cases n with
    | none => rfl
    | some i =>
      rw [increBound]
      by_cases ht : (getN ns i).isTerm
      · rw [if_pos ht]
        exact ih ns _ c b j
      · rw [if_neg ht]
        by_cases hb : b < (getN (optimize ns i) i).cost
        · rw [if_pos hb]
          exact optimize_anc ns i j
        · rw [if_neg hb]
          rw [ih _ _ _ _ _]
          exact optimize_anc ns i j

theorem restoreUp_length (fuel : Nat) :
    ∀ (ns : List PNode) (a stop : Option Nat),
    (restoreUp fuel ns a stop).length = ns.length := by
  induction fuel with
  | zero => intro ns a stop; cases a <;> rfl
  | succ fuel ih =>
    intro ns a stop
    cases a with
    | none => rfl
    | some i =>
      rw [restoreUp]
      split
      · exact length_setN ns i _
      · rw [ih]
        exact length_setN ns i _

theorem restoreUp_anc (fuel : Nat) :
    ∀ (ns : List PNode) (a stop : Option Nat) (j : Nat),
    (getN (restoreUp fuel ns a stop) j).anc = (getN ns j).anc := by
  induction fuel with
  | zero => intro ns a stop j; cases a <;> rfl
  | succ fuel ih =>
    intro ns a stop j
    cases a with
    | none => rfl
    | some i =>
      rw [restoreUp]
      split
      · exact getN_setN_anc ns i j _ (fun nd => rfl)
      · rw [ih]
        exact getN_setN_anc ns i j _ (fun nd => rfl)

/-- The splice block at the head of the `addTerm` candidate loop
(restated from `addTermStep` for reasoning by parts). -/
def spliceNodes (naIdx : Nat) (ns : List PNode) (d a : Nat) : List PNode :=
  let ns1 := setN ns naIdx (fun nd => { nd with anc := some a, right := some d })
  let ns2 := setN ns1 d (fun nd => { nd with anc := some naIdx })
  if (getN ns2 a).left = some d
    then setN ns2 a (fun nd => { nd with left := some naIdx })
    else setN ns2 a (fun nd => { nd with right := some naIdx })

/-- The unsplice block of the `addTerm` candidate loop (restated from
`addTermStep` for reasoning by parts). -/
def unspliceNodes (naIdx : Nat) (ns : List PNode) (d a : Nat) : List PNode :=
  let ns1 := if (getN ns a).left = some naIdx
    then setN ns a (fun nd => { nd with left := some d })
    else setN ns a (fun nd => { nd with right := some d })
  setN ns1 d (fun nd => { nd with anc := some a })

theorem addTermStep_eq (fuel naIdx : Nat) (s : AddState) (d a : Nat)
    (ha : (getN s.nodes d).anc = some a) :
    addTermStep fuel naIdx s d =
      { nodes := restoreUp fuel
          (unspliceNodes naIdx
            (increBound fuel (spliceNodes naIdx s.nodes d a)
              (some naIdx) 0 s.bestCost).1 d a)
          (some a)
          (increBound fuel (spliceNodes naIdx s.nodes d a)
            (some naIdx) 0 s.bestCost).2.2,
        bestCost := (if (increBound fuel (spliceNodes naIdx s.nodes d a)
              (some naIdx) 0 s.bestCost).2.1 < s.bestCost
          then ((increBound fuel (spliceNodes naIdx s.nodes d a)
              (some naIdx) 0 s.bestCost).2.1, some d)
          else (s.bestCost, s.bestPos)).1,
        bestPos := (if (increBound fuel (spliceNodes naIdx s.nodes d a)
              (some naIdx) 0 s.bestCost).2.1 < s.bestCost
          then ((increBound fuel (spliceNodes naIdx s.nodes d a)
              (some naIdx) 0 s.bestCost).2.1, some d)
          else (s.bestCost, s.bestPos)).2 } := by
  rw [addTermStep, ha]
  rfl

theorem optimize_eq_of (ns : List PNode) (i l r : Nat)
    (h : (getN ns i).isTerm = false)
    (hl : (getN ns i).left = some l) (hr : (getN ns i).right = some r) :
    optimize ns i = setN ns i (fun nd =>
      { nd with
        chars := List.zipWith fitchChar (getN ns l).chars (getN ns r).chars,
        cost := (getN ns l).cost + (getN ns r).cost
          + countPen (getN ns l).chars (getN ns r).chars }) := by
  unfold optimize
  simp only [h, Bool.false_eq_true, if_false]
  rw [hl, hr]

end Parsimony
end Ramita

namespace Ramita
namespace Parsimony

theorem firstCand_improves (f : Nat) (tr : PTree) (tmChars : List Nat)
    (hroot : tr.root = 0)
    (hlen : 3 ≤ tr.nodes.length)
    (hn : 1 ≤ tmChars.length)
    (hanc0 : (getN tr.nodes 0).anc = none)
    (hterm0 : (getN tr.nodes 0).isTerm = false)
    (hl0 : (getN tr.nodes 0).left = some 1)
    (hcost1 : (getN tr.nodes 1).cost = 0)
    (hcons : (getN tr.nodes 0).cost
      = (getN tr.nodes 1).cost + (getN tr.nodes 2).cost
        + countPen (getN tr.nodes 1).chars (getN tr.nodes 2).chars)
    (hlen1 : (getN tr.nodes 1).chars.length = tmChars.length)
    (hlen2 : (getN tr.nodes 2).chars.length = tmChars.length) :
    (increBound (f + 1 + 1)
        (spliceNodes tr.nodes.length (addTermStart tr tmChars).nodes 2 0)
        (some tr.nodes.length) 0 (addTermStart tr tmChars).bestCost).2.1
      < (addTermStart tr tmChars).bestCost := by
  have hgNa : getN (addTermStart tr tmChars).nodes tr.nodes.length
      = { anc := none, left := some (tr.nodes.length + 1), right := none,
          isTerm := false, chars := List.replicate tmChars.length 0, cost := 0,
          charsCopy := List.replicate tmChars.length 0, costCopy := 0 } :=
    getN_append_fst _ _ _
  have hgNt : getN (addTermStart tr tmChars).nodes (tr.nodes.length + 1)
      = { anc := some tr.nodes.length, left := none, right := none,
          isTerm := true, chars := tmChars, cost := 0,
          charsCopy := [], costCopy := 0 } :=
    getN_append_snd _ _ _
  have hg0 : getN (addTermStart tr tmChars).nodes 0 = getN tr.nodes 0 :=
    getN_append_lt _ _ _ (by omega)
  have hg1 : getN (addTermStart tr tmChars).nodes 1 = getN tr.nodes 1 :=
    getN_append_lt _ _ _ (by omega)
  have hg2 : getN (addTermStart tr tmChars).nodes 2 = getN tr.nodes 2 :=
    getN_append_lt _ _ _ (by omega)
  have hlen0 : (addTermStart tr tmChars).nodes.length = tr.nodes.length + 2 := by
    show (tr.nodes ++ [_, _]).length = tr.nodes.length + 2
    simp
  have hB : (addTermStart tr tmChars).bestCost
      = (getN tr.nodes 0).cost + tmChars.length * 2 := by
    show (getN tr.nodes tr.root).cost + tmChars.length * 2 = _
    rw [hroot]
  -- the spliced arena
  have hsp : spliceNodes tr.nodes.length (addTermStart tr tmChars).nodes 2 0
      = setN (setN (setN (addTermStart tr tmChars).nodes tr.nodes.length
          (fun nd => { nd with anc := some 0, right := some 2 })) 2
          (fun nd => { nd with anc := some tr.nodes.length })) 0
          (fun nd => { nd with right := some tr.nodes.length }) := by
    rw [spliceNodes]
    have hcond : (getN (setN (setN (addTermStart tr tmChars).nodes tr.nodes.length
        (fun nd => { nd with anc := some 0, right := some 2 })) 2
        (fun nd => { nd with anc := some tr.nodes.length })) 0).left = some 1 := by
      rw [getN_setN_ne _ _ _ (by omega), getN_setN_ne _ _ _ (by omega), hg0, hl0]
    rw [if_neg (by rw [hcond]; simp)]
  -- facts about the spliced arena
  have hA3 : getN (spliceNodes tr.nodes.length (addTermStart tr tmChars).nodes 2 0)
      tr.nodes.length
      = { anc := some 0, left := some (tr.nodes.length + 1), right := some 2,
          isTerm := false, chars := List.replicate tmChars.length 0, cost := 0,
          charsCopy := List.replicate tmChars.length 0, costCopy := 0 } := by
    rw [hsp, getN_setN_ne _ _ _ (by omega), getN_setN_ne _ _ _ (by omega),
      getN_setN_self _ _ (by omega), hgNa]
  have hA4 : getN (spliceNodes tr.nodes.length (addTermStart tr tmChars).nodes 2 0)
      (tr.nodes.length + 1)
      = { anc := some tr.nodes.length, left := none, right := none,
          isTerm := true, chars := tmChars, cost := 0,
          charsCopy := [], costCopy := 0 } := by
    rw [hsp, getN_setN_ne _ _ _ (by omega), getN_setN_ne _ _ _ (by omega),
      getN_setN_ne _ _ _ (by omega), hgNt]
  have hA2 : getN (spliceNodes tr.nodes.length (addTermStart tr tmChars).nodes 2 0) 2
      = { getN tr.nodes 2 with anc := some tr.nodes.length } := by
    rw [hsp, getN_setN_ne _ _ _ (by omega),
      getN_setN_self _ _ (by rw [length_setN, hlen0]; omega),
      getN_setN_ne _ _ _ (by omega), hg2]
  have hA1 : getN (spliceNodes tr.nodes.length (addTermStart tr tmChars).nodes 2 0) 1
      = getN tr.nodes 1 := by
    rw [hsp, getN_setN_ne _ _ _ (by omega), getN_setN_ne _ _ _ (by omega),
      getN_setN_ne _ _ _ (by omega), hg1]
  have hA0 : getN (spliceNodes tr.nodes.length (addTermStart tr tmChars).nodes 2 0) 0
      = { getN tr.nodes 0 with right := some tr.nodes.length } := by
    rw [hsp, getN_setN_self _ _ (by rw [length_setN, length_setN, hlen0]; omega),
      getN_setN_ne _ _ _ (by omega), getN_setN_ne _ _ _ (by omega), hg0]
  -- first rescore: the fresh internal node
  have hopt1 : optimize (spliceNodes tr.nodes.length (addTermStart tr tmChars).nodes 2 0)
      tr.nodes.length
      = setN (spliceNodes tr.nodes.length (addTermStart tr tmChars).nodes 2 0)
          tr.nodes.length
          (fun nd => { nd with
            chars := List.zipWith fitchChar tmChars (getN tr.nodes 2).chars,
            cost := 0 + (getN tr.nodes 2).cost
              + countPen tmChars (getN tr.nodes 2).chars }) := by
    unfold optimize
    rw [hA3]
    simp only [Bool.false_eq_true, if_false]
    rw [hA4, hA2]
  have hlensp : (spliceNodes tr.nodes.length (addTermStart tr tmChars).nodes 2 0).length
      = tr.nodes.length + 2 := by
    rw [hsp, length_setN, length_setN, length_setN, hlen0]
  have hcna : (getN (optimize (spliceNodes tr.nodes.length
        (addTermStart tr tmChars).nodes 2 0) tr.nodes.length) tr.nodes.length).cost
      = 0 + (getN tr.nodes 2).cost + countPen tmChars (getN tr.nodes 2).chars := by
    rw [hopt1, getN_setN_self _ _ (by rw [hlensp]; omega)]
  -- facts about the once-rescored arena
  have hB0 : getN (optimize (spliceNodes tr.nodes.length
        (addTermStart tr tmChars).nodes 2 0) tr.nodes.length) 0
      = { getN tr.nodes 0 with right := some tr.nodes.length } := by
    rw [optimize_frame _ _ _ (by omega), hA0]
  have hB1 : getN (optimize (spliceNodes tr.nodes.length
        (addTermStart tr tmChars).nodes 2 0) tr.nodes.length) 1
      = getN tr.nodes 1 := by
    rw [optimize_frame _ _ _ (by omega), hA1]
  have hBna : getN (optimize (spliceNodes tr.nodes.length
        (addTermStart tr tmChars).nodes 2 0) tr.nodes.length) tr.nodes.length
      = { anc := some 0, left := some (tr.nodes.length + 1), right := some 2,
          isTerm := false,
          chars := List.zipWith fitchChar tmChars (getN tr.nodes 2).chars,
          cost := 0 + (getN tr.nodes 2).cost
            + countPen tmChars (getN tr.nodes 2).chars,
          charsCopy := List.replicate tmChars.length 0, costCopy := 0 } := by
    rw [hopt1, getN_setN_self _ _ (by rw [hlensp]; omega), hA3]
  have hterm4 : (getN (optimize (spliceNodes tr.nodes.length
      (addTermStart tr tmChars).nodes 2 0) tr.nodes.length) 0).isTerm = false := by
    rw [hB0]
    exact hterm0
  have hanc4 : (getN (optimize (spliceNodes tr.nodes.length
      (addTermStart tr tmChars).nodes 2 0) tr.nodes.length) 0).anc = none := by
    rw [hB0]
    exact hanc0
  -- second rescore: the root
  have hopt2 : optimize (optimize (spliceNodes tr.nodes.length
        (addTermStart tr tmChars).nodes 2 0) tr.nodes.length) 0
      = setN (optimize (spliceNodes tr.nodes.length
          (addTermStart tr tmChars).nodes 2 0) tr.nodes.length) 0
          (fun nd => { nd with
            chars := List.zipWith fitchChar (getN tr.nodes 1).chars
              (List.zipWith fitchChar tmChars (getN tr.nodes 2).chars),
            cost := (getN tr.nodes 1).cost
              + (0 + (getN tr.nodes 2).cost
                + countPen tmChars (getN tr.nodes 2).chars)
              + countPen (getN tr.nodes 1).chars
                (List.zipWith fitchChar tmChars (getN tr.nodes 2).chars) }) := by
    rw [optimize_eq_of _ _ 1 tr.nodes.length hterm4
      (by rw [hB0]; exact hl0) (by rw [hB0])]
    rw [hB1, hBna]
  have hcroot : (getN (optimize (optimize (spliceNodes tr.nodes.length
        (addTermStart tr tmChars).nodes 2 0) tr.nodes.length) 0) 0).cost
      = (getN tr.nodes 1).cost
        + (0 + (getN tr.nodes 2).cost + countPen tmChars (getN tr.nodes 2).chars)
        + countPen (getN tr.nodes 1).chars
          (List.zipWith fitchChar tmChars (getN tr.nodes 2).chars) := by
    rw [hopt2, getN_setN_self _ _ (by rw [optimize_length, hlensp]; omega)]
  -- the arithmetic
  have hpen1 : countPen tmChars (getN tr.nodes 2).chars ≤ tmChars.length :=
    countPen_le_length _ _
  have hpen2 : countPen tmChars (getN tr.nodes 2).chars
      + countPen (getN tr.nodes 1).chars
        (List.zipWith fitchChar tmChars (getN tr.nodes 2).chars)
      ≤ countPen (getN tr.nodes 1).chars (getN tr.nodes 2).chars
        + (getN tr.nodes 2).chars.length :=
    countPen_insert_le _ _ _ (by rw [hlen1, hlen2]) (by rw [hlen2])
  -- run the bounded rescore
  have hnb1 : ¬((addTermStart tr tmChars).bestCost
      < (getN (optimize (spliceNodes tr.nodes.length
          (addTermStart tr tmChars).nodes 2 0) tr.nodes.length) tr.nodes.length).cost) := by
    rw [hcna, hB, hcons, hcost1]
    omega
  have hnb2 : ¬((addTermStart tr tmChars).bestCost
      < (getN (optimize (optimize (spliceNodes tr.nodes.length
          (addTermStart tr tmChars).nodes 2 0) tr.nodes.length) 0) 0).cost) := by
    rw [hcroot, hB, hcons, hcost1]
    omega
  have hterm3 : (getN (spliceNodes tr.nodes.length
      (addTermStart tr tmChars).nodes 2 0) tr.nodes.length).isTerm = false := by
    rw [hA3]
  have hanc3 : (getN (spliceNodes tr.nodes.length
      (addTermStart tr tmChars).nodes 2 0) tr.nodes.length).anc = some 0 := by
    rw [hA3]
  have hRun : increBound (f + 1 + 1)
      (spliceNodes tr.nodes.length (addTermStart tr tmChars).nodes 2 0)
      (some tr.nodes.length) 0 (addTermStart tr tmChars).bestCost
      = (optimize (optimize (spliceNodes tr.nodes.length
            (addTermStart tr tmChars).nodes 2 0) tr.nodes.length) 0,
         (getN (optimize (optimize (spliceNodes tr.nodes.length
            (addTermStart tr tmChars).nodes 2 0) tr.nodes.length) 0) 0).cost,
         none) := by
    rw [increBound]
    rw [if_neg (show ¬((getN (spliceNodes tr.nodes.length
      (addTermStart tr tmChars).nodes 2 0) tr.nodes.length).isTerm = true) by
        rw [hterm3]; simp)]
    rw [if_neg hnb1, hanc3]
    rw [increBound]
    rw [if_neg (show ¬((getN (optimize (spliceNodes tr.nodes.length
      (addTermStart tr tmChars).nodes 2 0) tr.nodes.length) 0).isTerm = true) by
        rw [hterm4]; simp)]
    rw [if_neg hnb2, hanc4]
    rw [increBound_none]
  rw [hRun]
  show (getN (optimize (optimize (spliceNodes tr.nodes.length
      (addTermStart tr tmChars).nodes 2 0) tr.nodes.length) 0) 0).cost
    < (addTermStart tr tmChars).bestCost
  rw [hcroot, hB, hcons, hcost1]
  omega

end Parsimony
end Ramita

namespace Ramita
namespace Parsimony

theorem spliceNodes_length (naIdx : Nat) (ns : List PNode) (d a : Nat) :
    (spliceNodes naIdx ns d a).length = ns.length := by
  simp only [spliceNodes]
  split <;> simp [length_setN]

theorem unspliceNodes_length (naIdx : Nat) (ns : List PNode) (d a : Nat) :
    (unspliceNodes naIdx ns d a).length = ns.length := by
  simp only [unspliceNodes]
  rw [length_setN]
  split <;> simp [length_setN]

theorem spliceNodes_anc_ne (naIdx : Nat) (ns : List PNode) (d a j : Nat)
    (hjn : j ≠ naIdx) (hjd : j ≠ d) :
    (getN (spliceNodes naIdx ns d a) j).anc = (getN ns j).anc := by
  simp only [spliceNodes]
  split
  · rw [getN_setN_anc _ a j (fun nd => { nd with left := some naIdx })
      (fun nd => rfl), getN_setN_ne _ _ _ hjd, getN_setN_ne _ _ _ hjn]
  · rw [getN_setN_anc _ a j (fun nd => { nd with right := some naIdx })
      (fun nd => rfl), getN_setN_ne _ _ _ hjd, getN_setN_ne _ _ _ hjn]

theorem unspliceNodes_anc_ne (naIdx : Nat) (ns : List PNode) (d a j : Nat)
    (hjd : j ≠ d) :
    (getN (unspliceNodes naIdx ns d a) j).anc = (getN ns j).anc := by
  simp only [unspliceNodes]
  rw [getN_setN_ne _ _ _ hjd]
  split
  · rw [getN_setN_anc _ a j (fun nd => { nd with left := some d })
      (fun nd => rfl)]
  · rw [getN_setN_anc _ a j (fun nd => { nd with right := some d })
      (fun nd => rfl)]

theorem unspliceNodes_anc_d (naIdx : Nat) (ns : List PNode) (d a : Nat)
    (hd : d < ns.length) :
    (getN (unspliceNodes naIdx ns d a) d).anc = some a := by
  simp only [unspliceNodes]
  have hl : (if (getN ns a).left = some naIdx
      then setN ns a (fun nd => { nd with left := some d })
      else setN ns a (fun nd => { nd with right := some d })).length = ns.length := by
    split <;> rw [length_setN]
  rw [getN_setN_self _ _ (by rw [hl]; exact hd)]

theorem addTermStep_bestPos_mono (fuel naIdx : Nat) (s : AddState) (d : Nat) :
    (addTermStep fuel naIdx s d).bestPos = some d
    ∨ (addTermStep fuel naIdx s d).bestPos = s.bestPos := by
  cases ha : (getN s.nodes d).anc with
  | none =>
    right
    rw [addTermStep, ha]
  | some a =>
    rw [addTermStep_eq fuel naIdx s d a ha]
    by_cases hlt : (increBound fuel (spliceNodes naIdx s.nodes d a)
        (some naIdx) 0 s.bestCost).2.1 < s.bestCost
    · left
      simp [hlt]
    · right
      simp [hlt]

theorem addTermStep_anc2 (fuel naIdx : Nat) (s : AddState) (d j : Nat)
    (hj : j ≠ naIdx) :
    (getN (addTermStep fuel naIdx s d).nodes j).anc = (getN s.nodes j).anc := by
  cases ha : (getN s.nodes d).anc with
  | none =>
    rw [addTermStep, ha]
  | some a =>
    have hdlen : d < s.nodes.length := by
      by_contra hcon
      push_neg at hcon
      unfold getN at ha
      rw [List.getD_eq_default _ _ hcon] at ha
      cases ha
    rw [addTermStep_eq fuel naIdx s d a ha]
    show (getN (restoreUp fuel
      (unspliceNodes naIdx
        (increBound fuel (spliceNodes naIdx s.nodes d a) (some naIdx) 0 s.bestCost).1 d a)
      (some a)
      (increBound fuel (spliceNodes naIdx s.nodes d a) (some naIdx) 0 s.bestCost).2.2) j).anc
      = (getN s.nodes j).anc
    rw [restoreUp_anc]
    by_cases hjd : j = d
    · subst hjd
      rw [unspliceNodes_anc_d _ _ _ _
        (by rw [increBound_length, spliceNodes_length]; exact hdlen), ha]
    · rw [unspliceNodes_anc_ne _ _ _ _ _ hjd, increBound_anc,
        spliceNodes_anc_ne _ _ _ _ _ hj hjd]

theorem addTermFinish_isSome (fuel naIdx root : Nat) (s : AddState) (bp a : Nat)
    (hbp : s.bestPos = some bp) (ha : (getN s.nodes bp).anc = some a) :
    (addTermFinish fuel naIdx root s).isSome = true := by
  simp only [addTermFinish, hbp, ha]
  rfl

theorem addTermFold_bestPos (fuel naIdx : Nat) :
    ∀ (ds : List Nat) (s : AddState),
    s.bestPos.isSome = true →
    ((ds.foldl (addTermStep fuel naIdx) s).bestPos.isSome = true
     ∧ ∀ bp, (ds.foldl (addTermStep fuel naIdx) s).bestPos = some bp →
         bp ∈ ds ∨ s.bestPos = some bp) := by
  intro ds
  induction ds with
  | nil =>
    intro s hs
    exact ⟨hs, fun bp h => Or.inr h⟩
  | cons d ds ih =>
    intro s hs
    have hstep := addTermStep_bestPos_mono fuel naIdx s d
    have hs2 : (addTermStep fuel naIdx s d).bestPos.isSome = true := by
      rcases hstep with h | h
      · rw [h]
        rfl
      · rw [h]
        exact hs
    have hih := ih (addTermStep fuel naIdx s d) hs2
    refine ⟨hih.1, ?_⟩
    intro bp hbp
    rcases hih.2 bp hbp with h | h
    · exact Or.inl (List.mem_cons_of_mem _ h)
    · rcases hstep with h2 | h2
      · rw [h2] at h
        cases h
        exact Or.inl (List.mem_cons_self _ _)
      · rw [h2] at h
        exact Or.inr h

theorem addTermFold_anc (fuel naIdx : Nat) :
    ∀ (ds : List Nat) (s : AddState) (j : Nat), j ≠ naIdx →
    (getN (ds.foldl (addTermStep fuel naIdx) s).nodes j).anc
      = (getN s.nodes j).anc := by
  intro ds
  induction ds with
  | nil => intro s j _; rfl
  | cons d ds ih =>
    intro s j hj
    rw [List.foldl_cons, ih _ _ hj, addTermStep_anc2 _ _ _ _ _ hj]

/-- C10 (amended): on a well-formed tree whose root (node 0, with the
outgroup terminal as node 1 and its other child node 2) carries a
stored cost consistent with the Fitch recomputation from its children,
and with at least one character, the very first candidate position
tried by `addTerm` (node 2, `tr.Nodes[2]`) already rescores strictly
below the initial bound `tr.Cost() + len(tm.Chars)*2`; so `bestPos`
is non-nil when the loop ends and the final splice dereferences a
valid pointer: `addTerm` returns a tree.  Without the consistency
hypothesis the claim is false (see the crafted inconsistent tree on
which `addTerm` hits the nil `bestPos`). -/
theorem addTerm_succeeds (fuel : Nat) (tr : PTree) (tmChars : List Nat)
    (hfuel : 2 ≤ fuel)
    (hroot : tr.root = 0)
    (hlen : 3 ≤ tr.nodes.length)
    (hn : 1 ≤ tmChars.length)
    (hanc0 : (getN tr.nodes 0).anc = none)
    (hterm0 : (getN tr.nodes 0).isTerm = false)
    (hl0 : (getN tr.nodes 0).left = some 1)
    (hanc2 : (getN tr.nodes 2).anc = some 0)
    (hcost1 : (getN tr.nodes 1).cost = 0)
    (hcons : (getN tr.nodes 0).cost
      = (getN tr.nodes 1).cost + (getN tr.nodes 2).cost
        + countPen (getN tr.nodes 1).chars (getN tr.nodes 2).chars)
    (hlen1 : (getN tr.nodes 1).chars.length = tmChars.length)
    (hlen2 : (getN tr.nodes 2).chars.length = tmChars.length)
    (hwf : ∀ j ∈ addTermCands tr, ((getN tr.nodes j).anc).isSome = true) :
    (addTerm fuel tr tmChars).isSome = true := by
  obtain ⟨f, rfl⟩ : ∃ f, fuel = f + 1 + 1 := ⟨fuel - 2, by omega⟩
  have hcands : addTermCands tr = 2 :: (List.range tr.nodes.length).drop 3 := by
    rw [addTermCands, List.drop_eq_getElem_cons
      (by simpa using (show 2 < tr.nodes.length by omega))]
    congr 1
    simp
  have ha2 : (getN (addTermStart tr tmChars).nodes 2).anc = some 0 :=
    (congrArg PNode.anc (getN_append_lt tr.nodes _ 2 (by omega))).trans hanc2
  have himp := firstCand_improves f tr tmChars hroot hlen hn hanc0 hterm0 hl0
    hcost1 hcons hlen1 hlen2
  have hbp1 : (addTermStep (f + 1 + 1) tr.nodes.length
      (addTermStart tr tmChars) 2).bestPos = some 2 := by
    rw [addTermStep_eq (f + 1 + 1) tr.nodes.length (addTermStart tr tmChars) 2 0 ha2]
    simp [himp]
  show (addTermFinish (f + 1 + 1) tr.nodes.length tr.root
      ((addTermCands tr).foldl (addTermStep (f + 1 + 1) tr.nodes.length)
        (addTermStart tr tmChars))).isSome = true
  rw [hcands, List.foldl_cons]
  have hfold := addTermFold_bestPos (f + 1 + 1) tr.nodes.length
    ((List.range tr.nodes.length).drop 3)
    (addTermStep (f + 1 + 1) tr.nodes.length (addTermStart tr tmChars) 2)
    (by rw [hbp1]; rfl)
  obtain ⟨hisSome, hmem⟩ := hfold
  cases hbp : (((List.range tr.nodes.length).drop 3).foldl
      (addTermStep (f + 1 + 1) tr.nodes.length)
      (addTermStep (f + 1 + 1) tr.nodes.length (addTermStart tr tmChars) 2)).bestPos with
  | none =>
    rw [hbp] at hisSome
    cases hisSome
  | some bp =>
    have hbpc : bp ∈ addTermCands tr := by
      rcases hmem bp hbp with h | h
      · rw [hcands]
        exact List.mem_cons_of_mem _ h
      · rw [hbp1] at h
        cases h
        rw [hcands]
        exact List.mem_cons_self _ _
    have hbplt : bp < tr.nodes.length := by
      have h1 : bp ∈ (List.range tr.nodes.length).drop 2 := by
        rw [addTermCands] at hbpc
        exact hbpc
      simpa using List.mem_range.mp (List.mem_of_mem_drop h1)
    have hbpn : bp ≠ tr.nodes.length := by omega
    have hancp : (getN (((List.range tr.nodes.length).drop 3).foldl
        (addTermStep (f + 1 + 1) tr.nodes.length)
        (addTermStep (f + 1 + 1) tr.nodes.length (addTermStart tr tmChars) 2)).nodes
        bp).anc = (getN tr.nodes bp).anc := by
      rw [addTermFold_anc _ _ _ _ _ hbpn, addTermStep_anc2 _ _ _ _ _ hbpn]
      exact congrArg PNode.anc (getN_append_lt tr.nodes _ bp hbplt)
    have hancS := hwf bp hbpc
    cases hAnc : (getN tr.nodes bp).anc with
    | none =>
      rw [hAnc] at hancS
      cases hancS
    | some abp =>
      exact addTermFinish_isSome _ _ _ _ bp abp hbp (hancp.trans hAnc)

/-- A crafted tree whose stored root cost (0) understates the honest
Fitch cost of its own children (2): the single character has four
mutually exclusive states across the terminals, so every insertion of
the new conflicting terminal rescores to at least 3, while the initial
bound is only 0 + 1*2 = 2. -/
def c10Tree : PTree :=
  { root := 0,
    nodes := [
      { anc := none, left := some 1, right := some 2, isTerm := false,
        chars := [7], cost := 0, charsCopy := [7], costCopy := 0 },
      { anc := some 0, left := none, right := none, isTerm := true,
        chars := [1], cost := 0, charsCopy := [], costCopy := 0 },
      { anc := some 0, left := some 3, right := some 4, isTerm := false,
        chars := [6], cost := 1, charsCopy := [6], costCopy := 1 },
      { anc := some 2, left := none, right := none, isTerm := true,
        chars := [2], cost := 0, charsCopy := [], costCopy := 0 },
      { anc := some 2, left := none, right := none, isTerm := true,
        chars := [4], cost := 0, charsCopy := [], costCopy := 0 } ] }

/-- C10 counterexample: on the inconsistent `c10Tree` (candidate list
`[2, 3, 4]` non-empty), no candidate beats the initial bound, so the
loop ends with `bestPos = nil` and the final splice dereferences a nil
pointer — `addTerm` panics, modelled as `none`. -/
theorem addTerm_nil_deref :
    addTerm 30 c10Tree [8] = none ∧ addTermCands c10Tree = [2, 3, 4] := by
  decide

/-- A consistent five-node tree (outgroup `{s0}`, terminals `{s0}` and
`{s1}`) for exercising the amended C10 theorem with the new terminal
`{s2}`. -/
def c10Consistent : PTree :=
  { root := 0,
    nodes := [
      { anc := none, left := some 1, right := some 2, isTerm := false,
        chars := [1], cost := 1, charsCopy := [1], costCopy := 1 },
      { anc := some 0, left := none, right := none, isTerm := true,
        chars := [1], cost := 0, charsCopy := [], costCopy := 0 },
      { anc := some 0, left := some 3, right := some 4, isTerm := false,
        chars := [3], cost := 1, charsCopy := [3], costCopy := 1 },
      { anc := some 2, left := none, right := none, isTerm := true,
        chars := [1], cost := 0, charsCopy := [], costCopy := 0 },
      { anc := some 2, left := none, right := none, isTerm := true,
        chars := [2], cost := 0, charsCopy := [], costCopy := 0 } ] }

/-- Witness for C10 (amended) on a concrete consistent tree. -/
theorem addTerm_succeeds_witness :
    (1 ≤ ([4] : List Nat).length) ∧ (addTerm 30 c10Consistent [4]).isSome = true :=
  ⟨by decide,
   addTerm_succeeds 30 c10Consistent [4] (by omega) rfl (by decide) (by decide)
     (by decide) (by decide) (by decide) (by decide) (by decide) (by decide)
     (by decide) (by decide) (by decide)⟩

end Parsimony
end Ramita

namespace Ramita
namespace Parsimony

theorem swapCand_bound (fuel aIdx rootIdx sisIdx : Nat) (st : SwapState × Bool)
    (p : Nat) (B : Nat)
    (h1 : st.1.bestCost ≤ B) (h2 : st.1.improved = true → st.1.bestCost < B) :
    (swapCand fuel aIdx rootIdx sisIdx st p).1.bestCost ≤ B
    ∧ ((swapCand fuel aIdx rootIdx sisIdx st p).1.improved = true →
        (swapCand fuel aIdx rootIdx sisIdx st p).1.bestCost < B) := by
  simp only [swapCand]
  repeat' split
  all_goals try exact ⟨h1, h2⟩
  all_goals rename_i hlt
  all_goals exact ⟨le_of_lt (lt_of_lt_of_le hlt h1), fun _ => lt_of_lt_of_le hlt h1⟩

theorem swapDetach_bound (fuel rootIdx : Nat) (st : SwapState) (i : Nat)
    (ctx : DetachCtx) (h : swapDetach fuel rootIdx st i = some ctx) :
    ctx.st.bestCost = st.bestCost ∧ ctx.st.improved = st.improved := by
  simp only [swapDetach] at h
  split at h
  · cases h
  split at h
  · cases h
  split at h
  · cases h
  split at h
  · cases h
  cases h
  exact ⟨rfl, rfl⟩

theorem swapCandFold_bound (fuel aIdx rootIdx sisIdx : Nat) (B : Nat) :
    ∀ (ps : List Nat) (s : SwapState × Bool),
    s.1.bestCost ≤ B → (s.1.improved = true → s.1.bestCost < B) →
    ((ps.foldl (swapCand fuel aIdx rootIdx sisIdx) s).1.bestCost ≤ B
     ∧ ((ps.foldl (swapCand fuel aIdx rootIdx sisIdx) s).1.improved = true →
        (ps.foldl (swapCand fuel aIdx rootIdx sisIdx) s).1.bestCost < B)) := by
  intro ps
  induction ps with
  | nil => intro s h1 h2; exact ⟨h1, h2⟩
  | cons p ps ih =>
    intro s h1 h2
    rw [List.foldl_cons]
    have := swapCand_bound fuel aIdx rootIdx sisIdx s p B h1 h2
    exact ih _ this.1 this.2

theorem swapIter_bound (fuel rootIdx : Nat) (ls : List Nat) (st : SwapState)
    (i : Nat) (B : Nat)
    (h1 : st.bestCost ≤ B) (h2 : st.improved = true → st.bestCost < B) :
    (swapIter fuel rootIdx ls st i).bestCost ≤ B
    ∧ ((swapIter fuel rootIdx ls st i).improved = true →
        (swapIter fuel rootIdx ls st i).bestCost < B) := by
  unfold swapIter
  cases hd : swapDetach fuel rootIdx st i with
  | none => exact ⟨h1, h2⟩
  | some ctx =>
    obtain ⟨hb, hi⟩ := swapDetach_bound fuel rootIdx st i ctx hd
    have hfold := swapCandFold_bound fuel ctx.aIdx rootIdx ctx.sisIdx B ls
      (ctx.st, false) (by rw [hb]; exact h1) (by rw [hb]; intro h; exact h2 (hi ▸ h))
    split
    next heq => cases heq
    next ctx2 heq =>
      cases heq
      split
      next st2 imp heq2 =>
        rw [heq2] at hfold
        split
        · exact hfold
        · exact hfold

theorem swapIterFold_bound (fuel rootIdx : Nat) (ls : List Nat) (B : Nat) :
    ∀ (is : List Nat) (st : SwapState),
    st.bestCost ≤ B → (st.improved = true → st.bestCost < B) →
    ((is.foldl (swapIter fuel rootIdx ls) st).bestCost ≤ B
     ∧ ((is.foldl (swapIter fuel rootIdx ls) st).improved = true →
        (is.foldl (swapIter fuel rootIdx ls) st).bestCost < B)) := by
  intro is
  induction is with
  | nil => intro st h1 h2; exact ⟨h1, h2⟩
  | cons i is ih =>
    intro st h1 h2
    rw [List.foldl_cons]
    have := swapIter_bound fuel rootIdx ls st i B h1 h2
    exact ih _ this.1 this.2

/-- C2 (amended): the monotone quantity of the Dayhoff SPR sweep is
the bound `bestCost` that `swap` maintains, initialized to the stored
root cost: it never increases during a sweep, and if the sweep
accepted any rearrangement (`improved`) the bound ended strictly below
the initial root cost — every acceptance is checked against it and
lowers it.  `Dayoff` terminates as soon as an entire sweep produces no
improvement, returning that sweep's tree.  The stored root cost itself
is not monotone for arbitrary stored states: on a tree whose stored
costs are inconsistent with its characters a sweep can raise it (see
the crafted counterexample), because the reattach rescore recomputes
the chain from stored child states the sweep itself restored. -/
theorem dayoff_bound_monotone (fuel rootIdx : Nat) (ns : List PNode) (ls : List Nat) :
    ((ls.foldl (swapIter fuel rootIdx ls)
        { nodes := ns, bestCost := (getN ns rootIdx).cost, improved := false }).bestCost
      ≤ (getN ns rootIdx).cost
     ∧ ((ls.foldl (swapIter fuel rootIdx ls)
        { nodes := ns, bestCost := (getN ns rootIdx).cost, improved := false }).improved
          = true →
        (ls.foldl (swapIter fuel rootIdx ls)
          { nodes := ns, bestCost := (getN ns rootIdx).cost, improved := false }).bestCost
          < (getN ns rootIdx).cost))
    ∧ ∀ (sweeps : Nat) (ns2 : List PNode),
        swap fuel rootIdx ns ls = (ns2, false) →
        dayoffLoop fuel rootIdx ls (sweeps + 1) ns = ns2 := by
  constructor
  · exact swapIterFold_bound fuel rootIdx ls ((getN ns rootIdx).cost) ls
      { nodes := ns, bestCost := (getN ns rootIdx).cost, improved := false }
      (le_refl _) (by intro h; cases h)
  · intro sweeps ns2 h
    rw [dayoffLoop, h]

/-- A five-node tree with inconsistent stored states: the root stores
cost 0, but its right child stores cost 5 and a state set conflicting
with the outgroup.  The characters of the terminals alone would give
the root a cost of 1. -/
def c2Nodes : List PNode :=
  [ { anc := none, left := some 1, right := some 2, isTerm := false,
      chars := [1], cost := 0, charsCopy := [0], costCopy := 0 },
    { anc := some 0, left := none, right := none, isTerm := true,
      chars := [1], cost := 0, charsCopy := [], costCopy := 0 },
    { anc := some 0, left := some 3, right := some 4, isTerm := false,
      chars := [2], cost := 5, charsCopy := [0], costCopy := 0 },
    { anc := some 2, left := none, right := none, isTerm := true,
      chars := [1], cost := 0, charsCopy := [], costCopy := 0 },
    { anc := some 2, left := none, right := none, isTerm := true,
      chars := [2], cost := 0, charsCopy := [], costCopy := 0 } ]

/-- C2 counterexample: on `c2Nodes` the single (non-improving) sweep
raises the stored root cost from 0 to 6 — the reattach phase restores
the detached node's inconsistent backup (cost 5) and rescores the root
from it — and `Dayoff` then stops, returning a tree whose root cost
exceeds the cost before the sweep. -/
theorem dayoff_cost_increases :
    (getN c2Nodes 0).cost = 0
    ∧ (swap 30 0 (commitAll c2Nodes) [1, 2, 3, 4]).2 = false
    ∧ (getN (dayoff 30 5 0 c2Nodes [1, 2, 3, 4]) 0).cost = 6 := by
  decide

/-- A consistent three-node tree on which the single sweep is a no-op
(both non-root nodes are children of the root). -/
def c2WNodes : List PNode :=
  [ { anc := none, left := some 1, right := some 2, isTerm := false,
      chars := [1], cost := 0, charsCopy := [1], costCopy := 0 },
    { anc := some 0, left := none, right := none, isTerm := true,
      chars := [1], cost := 0, charsCopy := [], costCopy := 0 },
    { anc := some 0, left := none, right := none, isTerm := true,
      chars := [1], cost := 0, charsCopy := [], costCopy := 0 } ]

/-- Witness for C2 (amended) at a concrete sweep. -/
theorem dayoff_bound_monotone_witness :
    (([1, 2] : List Nat).foldl (swapIter 5 0 [1, 2])
        { nodes := c2WNodes, bestCost := (getN c2WNodes 0).cost,
          improved := false }).bestCost
      ≤ (getN c2WNodes 0).cost
    ∧ dayoffLoop 5 0 [1, 2] 3 c2WNodes = (swap 5 0 c2WNodes [1, 2]).1 :=
  ⟨(dayoff_bound_monotone 5 0 c2WNodes [1, 2]).1.1,
   (dayoff_bound_monotone 5 0 c2WNodes [1, 2]).2 2 (swap 5 0 c2WNodes [1, 2]).1
     (Prod.ext_iff.mpr ⟨rfl, by decide⟩)⟩

end Parsimony
end Ramita
